import Mathlib

/-!
PHP magic hashes over Open MPI: the candidate filter, the alphabet counter and the
partition of the search among the workers.

A shallow embedding of `phpmagic_sha1_openmpi.cpp`.

* Bytes (`unsigned char`) are natural numbers below 256; `++a` on a byte is
  `(a + 1) % 256`.
* A digest (`const unsigned char b[CDigestLength]`) is a list of 20 bytes and
  `b[i]` is `b.getD i 0`.
* A message buffer is a list of bytes and a pointer into it is an index.  A
  read or write through a pointer that has left the buffer is the error
  result `none`.
-/

namespace PhpMagic

/-! ## Constants -/

/-- The digest size of SHA-1 in bytes. -/
def CDigestLength : Nat := 20

/-- The length of the message to be hashed. -/
def CMessageLen : Nat := 16

def CChar00 : Nat := 0x00
def CChar0E : Nat := 0x0e

/-- A digest: the bytes `b[0] .. b[CDigestLength - 1]`. -/
abbrev Digest := List Nat

/-- A well-formed digest has `CDigestLength` entries, each of them a byte. -/
def is_digest (b : Digest) : Prop :=
  b.length = CDigestLength ∧ ∀ x ∈ b, x < 256

instance (b : Digest) : Decidable (is_digest b) := by
  unfold is_digest; infer_instance

/-! ## The structural predicate -/

/-- Source: `((b & 0xf) <= 9) && ((b >> 4) <= 9)`. -/
def is_digit_byte (b : Nat) : Bool :=
  decide ((b &&& 0xf) ≤ 9) && decide ((b >>> 4) ≤ 9)

/-- Source: `((b & 0xf) <= 9) && ((b >> 4) == CChar0E)`. -/
def is_edigit_byte (b : Nat) : Bool :=
  decide ((b &&& 0xf) ≤ 9) && decide ((b >>> 4) = CChar0E)

/-- Bytes 4 to 19 are digit bytes. -/
def is_phpmagic_4up (b : Digest) : Bool :=
  is_digit_byte (b.getD 4 0) &&
  is_digit_byte (b.getD 5 0) &&
  is_digit_byte (b.getD 6 0) &&
  is_digit_byte (b.getD 7 0) &&
  is_digit_byte (b.getD 8 0) &&
  is_digit_byte (b.getD 9 0) &&
  is_digit_byte (b.getD 10 0) &&
  is_digit_byte (b.getD 11 0) &&
  is_digit_byte (b.getD 12 0) &&
  is_digit_byte (b.getD 13 0) &&
  is_digit_byte (b.getD 14 0) &&
  is_digit_byte (b.getD 15 0) &&
  is_digit_byte (b.getD 16 0) &&
  is_digit_byte (b.getD 17 0) &&
  is_digit_byte (b.getD 18 0) &&
  is_digit_byte (b.getD 19 0)

def is_nothex_from_b3 (b : Digest) : Bool :=
  is_digit_byte (b.getD 3 0) && is_phpmagic_4up b

/-- The `switch (b2)` of the source, in the order of its cases. -/
def is_from_b2_after_zero (b : Digest) : Bool :=
  let b2 := b.getD 2 0
  if b2 = CChar0E then is_nothex_from_b3 b
  else if b2 = CChar00 then
    let b3 := b.getD 3 0
    if b3 = CChar0E ∨ is_edigit_byte b3 = true then is_phpmagic_4up b else false
  else
    if is_edigit_byte b2 = true then is_nothex_from_b3 b else false

/-- The `switch (b[0])` of the source with its nested `switch (b1)`. -/
def is_phpmagic_buf (b : Digest) : Bool :=
  let b0 := b.getD 0 0
  if b0 = CChar0E then
    is_digit_byte (b.getD 1 0) && is_digit_byte (b.getD 2 0) && is_nothex_from_b3 b
  else if b0 = CChar00 then
    let b1 := b.getD 1 0
    if b1 = CChar0E then is_digit_byte (b.getD 2 0) && is_nothex_from_b3 b
    else if b1 = CChar00 then is_from_b2_after_zero b
    else
      if is_edigit_byte b1 = true then is_digit_byte (b.getD 2 0) && is_nothex_from_b3 b
      else false
  else false

/-! ## The hexadecimal rendering of a digest -/

/-- The table `dec2hex[16 + 1] = "0123456789abcdef"`. -/
def dec2hex : List Char :=
  "0123456789abcdef".toList

/-- The loop `for (i = 0; i < CDigestLength; i++)` that appends
`dec2hex[(hash[i] >> 4) & 15]` and `dec2hex[hash[i] & 15]`. -/
def hash_code (hash : Digest) : List Char :=
  (List.range CDigestLength).flatMap fun i =>
    [dec2hex.getD (((hash.getD i 0) >>> 4) &&& 15) '?', dec2hex.getD ((hash.getD i 0) &&& 15) '?']

/-- The character the rendering loop emits for the high nibble of a byte. -/
def hi_char (x : Nat) : Char := dec2hex.getD ((x >>> 4) &&& 15) '?'

/-- The character the rendering loop emits for the low nibble of a byte. -/
def lo_char (x : Nat) : Char := dec2hex.getD (x &&& 15) '?'

/-- A rendering of the form: `z` characters `'0'`, then `'e'`, then decimal
digits only, to the end. -/
def zeros_e_digits : Nat → List Char → Bool
  | 0, [] => false
  | 0, c :: cs => (c == 'e') && cs.all Char.isDigit
  | _ + 1, [] => false
  | z + 1, c :: cs => (c == '0') && zeros_e_digits z cs

/-- The sample digest `0e26379374770352024666148968868586665768`. -/
def sample_0e : Digest :=
  [0x0e, 0x26, 0x37, 0x93, 0x74, 0x77, 0x03, 0x52, 0x02, 0x46,
   0x66, 0x14, 0x89, 0x68, 0x86, 0x85, 0x66, 0x57, 0x68, 0x00]

/-- The sample digest `00e0209539108131630074694125235505223102`. -/
def sample_00e_upper : Digest :=
  [0x00, 0xe0, 0x20, 0x95, 0x39, 0x10, 0x81, 0x31, 0x63, 0x00,
   0x74, 0x69, 0x41, 0x25, 0x23, 0x55, 0x05, 0x22, 0x31, 0x02]

/-- The sample digest `00e6970695351422324349039381794949865825`. -/
def sample_00e_mixed : Digest :=
  [0x00, 0xe6, 0x97, 0x06, 0x95, 0x35, 0x14, 0x22, 0x32, 0x43,
   0x49, 0x03, 0x93, 0x81, 0x79, 0x49, 0x49, 0x86, 0x58, 0x25]

/-- Four leading zero bytes, then `0x0e`, then digit bytes. -/
def four_zero_bytes_0e : Digest :=
  [0x00, 0x00, 0x00, 0x00, 0x0e, 0x00, 0x00, 0x00, 0x00, 0x00,
   0x00, 0x00, 0x00, 0x00, 0x00, 0x00, 0x00, 0x00, 0x00, 0x00]

/-! ## Configuration

The source selects the alphabet and the partitioning strategy with preprocessor
switches; here they are parameters. -/

/-- The six switches of which the configuration section defines just one. -/
inductive Alphabet
  | digits_only
  | lowercase_only
  | uppercase_only
  | mixed_case_only
  | mixed_case_with_digits
  | mixcase_digits_punct
  deriving DecidableEq, Repr

/-- The byte `CInitialChar` of each configuration: `'0'`, `'a'`, `'A'`, `'A'`, `'0'`, `'!'`. -/
def CInitialChar : Alphabet → Nat
  | .digits_only => 48
  | .lowercase_only => 97
  | .uppercase_only => 65
  | .mixed_case_only => 65
  | .mixed_case_with_digits => 48
  | .mixcase_digits_punct => 33

/-! ## The alphabet counter

`c` is the index the pointer `c` refers to.  Each function is the `while (true)` loop of the
source: `continue` after `--c` is the recursive call, and a read below index 0 or past the
end of the buffer is `none`.  The byte codes are `'0'` 48, `'9'` 57, `'A'` 65, `'Z'` 90,
`'a'` 97, `'z'` 122, `'!'` 33. -/

def increment_char_mixedcase_with_digits : Nat → List Nat → Option (List Nat)
  | c, buf =>
    match buf[c]? with
    | none => none
    | some a =>
      if a = 57 then some (buf.set c 65)
      else if a = 90 then some (buf.set c 97)
      else if a = 122 then
        match c with
        | 0 => none
        | c1 + 1 => increment_char_mixedcase_with_digits c1 (buf.set (c1 + 1) 48)
      else some (buf.set c ((a + 1) % 256))

def increment_char_mixedcase_with_digits_and_punctuation : Nat → List Nat → Option (List Nat)
  | c, buf =>
    match buf[c]? with
    | none => none
    | some a =>
      if a = 57 then some (buf.set c 65)
      else if a = 90 then some (buf.set c 97)
      else if a = 122 then
        match c with
        | 0 => none
        | c1 + 1 => increment_char_mixedcase_with_digits_and_punctuation c1 (buf.set (c1 + 1) 33)
      else some (buf.set c ((a + 1) % 256))

def increment_char_mixedcase : Nat → List Nat → Option (List Nat)
  | c, buf =>
    match buf[c]? with
    | none => none
    | some a =>
      if a = 90 then some (buf.set c 97)
      else if a = 122 then
        match c with
        | 0 => none
        | c1 + 1 => increment_char_mixedcase c1 (buf.set (c1 + 1) 65)
      else some (buf.set c ((a + 1) % 256))

def increment_char_uppercase : Nat → List Nat → Option (List Nat)
  | c, buf =>
    match buf[c]? with
    | none => none
    | some a =>
      if a = 90 then
        match c with
        | 0 => none
        | c1 + 1 => increment_char_uppercase c1 (buf.set (c1 + 1) 65)
      else some (buf.set c ((a + 1) % 256))

def increment_char_lowercase : Nat → List Nat → Option (List Nat)
  | c, buf =>
    match buf[c]? with
    | none => none
    | some a =>
      if a = 122 then
        match c with
        | 0 => none
        | c1 + 1 => increment_char_lowercase c1 (buf.set (c1 + 1) 97)
      else some (buf.set c ((a + 1) % 256))

def increment_char_digits : Nat → List Nat → Option (List Nat)
  | c, buf =>
    match buf[c]? with
    | none => none
    | some a =>
      if a = 57 then
        match c with
        | 0 => none
        | c1 + 1 => increment_char_digits c1 (buf.set (c1 + 1) 48)
      else some (buf.set c ((a + 1) % 256))

/-- The dispatch on the configured alphabet. -/
def increment_char_short (cfg : Alphabet) (c : Nat) (buf : List Nat) : Option (List Nat) :=
  match cfg with
  | .digits_only => increment_char_digits c buf
  | .mixcase_digits_punct => increment_char_mixedcase_with_digits_and_punctuation c buf
  | .lowercase_only => increment_char_lowercase c buf
  | .uppercase_only => increment_char_uppercase c buf
  | .mixed_case_only => increment_char_mixedcase c buf
  | .mixed_case_with_digits => increment_char_mixedcase_with_digits c buf

/-! ## The numeral system of a configuration -/

/-- The number of symbols of the alphabet. -/
def radix : Alphabet → Nat
  | .digits_only => 10
  | .lowercase_only => 26
  | .uppercase_only => 26
  | .mixed_case_only => 52
  | .mixed_case_with_digits => 62
  | .mixcase_digits_punct => 77

/-- The symbol at which the counter of the configuration wraps and carries. -/
def last_symbol : Alphabet → Nat
  | .digits_only => 57
  | .lowercase_only => 122
  | .uppercase_only => 90
  | .mixed_case_only => 122
  | .mixed_case_with_digits => 122
  | .mixcase_digits_punct => 122

/-- The byte the `switch` stores for a byte that does not carry. -/
def next_byte : Alphabet → Nat → Nat
  | .digits_only, a => (a + 1) % 256
  | .lowercase_only, a => (a + 1) % 256
  | .uppercase_only, a => (a + 1) % 256
  | .mixed_case_only, a => if a = 90 then 97 else (a + 1) % 256
  | .mixed_case_with_digits, a => if a = 57 then 65 else if a = 90 then 97 else (a + 1) % 256
  | .mixcase_digits_punct, a => if a = 57 then 65 else if a = 90 then 97 else (a + 1) % 256

/-- The bytes reached from `CInitialChar` by the successor chain, up to the wrapping symbol. -/
def is_symbol : Alphabet → Nat → Bool
  | .digits_only, a => decide (48 ≤ a ∧ a ≤ 57)
  | .lowercase_only, a => decide (97 ≤ a ∧ a ≤ 122)
  | .uppercase_only, a => decide (65 ≤ a ∧ a ≤ 90)
  | .mixed_case_only, a => decide ((65 ≤ a ∧ a ≤ 90) ∨ (97 ≤ a ∧ a ≤ 122))
  | .mixed_case_with_digits, a =>
    decide ((48 ≤ a ∧ a ≤ 57) ∨ (65 ≤ a ∧ a ≤ 90) ∨ (97 ≤ a ∧ a ≤ 122))
  | .mixcase_digits_punct, a =>
    decide ((33 ≤ a ∧ a ≤ 57) ∨ (65 ≤ a ∧ a ≤ 90) ∨ (97 ≤ a ∧ a ≤ 122))

/-- The position of a symbol in the successor chain that starts at `CInitialChar`. -/
def digit_of : Alphabet → Nat → Nat
  | .digits_only, a => a - 48
  | .lowercase_only, a => a - 97
  | .uppercase_only, a => a - 65
  | .mixed_case_only, a => if a ≤ 90 then a - 65 else a - 97 + 26
  | .mixed_case_with_digits, a =>
    if a ≤ 57 then a - 48 else if a ≤ 90 then a - 65 + 10 else a - 97 + 36
  | .mixcase_digits_punct, a =>
    if a ≤ 57 then a - 33 else if a ≤ 90 then a - 65 + 25 else a - 97 + 51

/-- The symbol at a position of the successor chain. -/
def symbol_of : Alphabet → Nat → Nat
  | .digits_only, d => d + 48
  | .lowercase_only, d => d + 97
  | .uppercase_only, d => d + 65
  | .mixed_case_only, d => if d < 26 then d + 65 else d - 26 + 97
  | .mixed_case_with_digits, d =>
    if d < 10 then d + 48 else if d < 36 then d - 10 + 65 else d - 36 + 97
  | .mixcase_digits_punct, d =>
    if d < 25 then d + 33 else if d < 51 then d - 25 + 65 else d - 51 + 97

/-- The value of a run of symbols read as a numeral, most significant symbol first. -/
def value_of (cfg : Alphabet) (l : List Nat) : Nat :=
  l.foldl (fun acc a => acc * radix cfg + digit_of cfg a) 0

/-- The bytes `buf[p] .. buf[i]`. -/
def region (buf : List Nat) (p i : Nat) : List Nat :=
  (buf.drop p).take (i + 1 - p)

/-- The loop shared by the six counters: a byte other than the wrapping symbol is replaced
by its successor; the wrapping symbol becomes `CInitialChar` and the walk moves left. -/
def carry_walk (cfg : Alphabet) : Nat → List Nat → Option (List Nat)
  | c, buf =>
    match buf[c]? with
    | none => none
    | some a =>
      if a = last_symbol cfg then
        match c with
        | 0 => none
        | c1 + 1 => carry_walk cfg c1 (buf.set (c1 + 1) (CInitialChar cfg))
      else some (buf.set c (next_byte cfg a))

/-! ## The start-up of `main` and the search loop -/

/-- The literal the message starts with. -/
def message_literal : Alphabet → List Nat
  | .digits_only => "1".toList.map Char.toNat
  | .mixcase_digits_punct => "MixC!0".toList.map Char.toNat
  | .lowercase_only => "lowercase".toList.map Char.toNat
  | .uppercase_only => "UPPERCASE".toList.map Char.toNat
  | .mixed_case_only => "MixedCase".toList.map Char.toNat
  | .mixed_case_with_digits => "MixCaseDig0".toList.map Char.toNat

/-- The ways the start-up can end without a message buffer: the two `return 1` paths and an
access outside a buffer. -/
inductive Failure
  | stepover_buffer_overflow
  | message_too_long
  | out_of_bounds
  deriving DecidableEq, Repr

instance : DecidableEq (Except Failure (List Nat))
  | .ok a, .ok b =>
    if h : a = b then isTrue (by rw [h]) else isFalse (fun h2 => h (Except.ok.inj h2))
  | .error a, .error b =>
    if h : a = b then isTrue (by rw [h]) else isFalse (fun h2 => h (Except.error.inj h2))
  | .ok _, .error _ => isFalse (fun h => Except.noConfusion h)
  | .error _, .ok _ => isFalse (fun h => Except.noConfusion h)

def CSuffixLength : Nat := 100

/-- Source: `for (int i = 0; i < mpi_current; ++i)` over the 100-byte `suffix`, with the
check of `suffix[1]` after every increment.  The first argument counts the passes left. -/
def rank_suffix_loop (cfg : Alphabet) : Nat → List Nat → Except Failure (List Nat)
  | 0, suffix => .ok suffix
  | n + 1, suffix =>
    match increment_char_short cfg (CSuffixLength - 1) suffix with
    | none => .error .out_of_bounds
    | some suffix1 =>
      if suffix1.getD 1 0 ≠ CInitialChar cfg then .error .stepover_buffer_overflow
      else rank_suffix_loop cfg n suffix1

/-- Source: `while (*charptr != CInitialChar) { ++len; --charptr; }`; the result is the final
`charptr` and `len`. -/
def scan_suffix (cfg : Alphabet) (suffix : List Nat) : Nat → Nat → Option (Nat × Nat)
  | charptr, len =>
    match suffix[charptr]? with
    | none => none
    | some a =>
      if a ≠ CInitialChar cfg then
        match charptr with
        | 0 => none
        | p + 1 => scan_suffix cfg suffix p (len + 1)
      else some (charptr, len)

/-- The block under `#ifndef stepover_run`: the message with the rank suffix appended. -/
def append_rank_suffix (cfg : Alphabet) (mpi_current : Nat) (message : List Nat) :
    Except Failure (List Nat) :=
  match rank_suffix_loop cfg mpi_current (List.replicate CSuffixLength (CInitialChar cfg)) with
  | .error e => .error e
  | .ok suffix =>
    match scan_suffix cfg suffix (CSuffixLength - 1) 0 with
    | none => .error .out_of_bounds
    | some (charptr, len) =>
      if len > 0 then .ok (message ++ (suffix.drop (charptr + 1)).take len) else .ok message

/-- Source: `while (message.length() < CMessageLen)`.  Every pass appends one byte, so the
body runs once per missing byte; the first argument counts the passes left, `c` is the
variable `c`. -/
def padding_loop (cfg : Alphabet) : Nat → Nat → List Nat → Except Failure (List Nat)
  | 0, _, message => .ok message
  | n + 1, c, message =>
    match increment_char_short cfg 1 [CInitialChar cfg, c] with
    | none => .error .out_of_bounds
    | some buff => padding_loop cfg n (buff.getD 1 0) (message ++ [c])

/-- The message `main` copies into `buf`: prefix, rank suffix unless `stepover_run`, padding,
then the length check. -/
def initial_message (cfg : Alphabet) (stepover_run : Bool) (mpi_current : Nat) :
    Except Failure (List Nat) :=
  match (if stepover_run then .ok (message_literal cfg)
      else append_rank_suffix cfg mpi_current (message_literal cfg)) with
  | .error e => .error e
  | .ok message =>
    match padding_loop cfg (CMessageLen - message.length) (CInitialChar cfg) message with
    | .error e => .error e
    | .ok message1 =>
      if message1.length > CMessageLen then .error .message_too_long else .ok message1

/-- Source: `for (int i = 0; i < n; ++i) increment_char_short(&(buf[c]))`, the loop `main`
runs with `c = CMessageLen - 1`. -/
def repeat_increment (cfg : Alphabet) (c : Nat) : Nat → List Nat → Option (List Nat)
  | 0, buf => some buf
  | n + 1, buf =>
    match increment_char_short cfg c buf with
    | none => none
    | some buf1 => repeat_increment cfg c n buf1

/-- An access outside the buffer ends the run without a result. -/
def or_out_of_bounds (o : Option (List Nat)) : Except Failure (List Nat) :=
  match o with
  | none => .error .out_of_bounds
  | some buf => .ok buf

/-- The buffer `buf` on entry to the search loop: zero-filled, the message copied in, and
under `stepover_run` advanced `mpi_current` times. -/
def initial_buf (cfg : Alphabet) (stepover_run : Bool) (mpi_current : Nat) :
    Except Failure (List Nat) :=
  match initial_message cfg stepover_run mpi_current with
  | .error e => .error e
  | .ok message =>
    let buf := message ++ List.replicate (CMessageLen - message.length) 0
    if stepover_run then or_out_of_bounds (repeat_increment cfg (CMessageLen - 1) mpi_current buf)
    else .ok buf

/-- The advance at the end of a pass of the search loop. -/
def loop_advance (cfg : Alphabet) (stepover_run : Bool) (mpi_total : Nat) (buf : List Nat) :
    Option (List Nat) :=
  if stepover_run then repeat_increment cfg (CMessageLen - 1) mpi_total buf
  else increment_char_short cfg (CMessageLen - 1) buf

/-- The buffer after `j` passes of the search loop that found no match. -/
def advance_passes (cfg : Alphabet) (stepover_run : Bool) (mpi_total : Nat) :
    Nat → List Nat → Option (List Nat)
  | 0, buf => some buf
  | j + 1, buf =>
    match loop_advance cfg stepover_run mpi_total buf with
    | none => none
    | some buf1 => advance_passes cfg stepover_run mpi_total j buf1

/-- The buffer worker `mpi_current` hashes in pass `j` of its search loop. -/
def hashed_buf (cfg : Alphabet) (stepover_run : Bool) (mpi_current mpi_total j : Nat) :
    Except Failure (List Nat) :=
  match initial_buf cfg stepover_run mpi_current with
  | .error e => .error e
  | .ok buf => or_out_of_bounds (advance_passes cfg stepover_run mpi_total j buf)

/-! ## Notions the statements use -/

/-- The number of increments at the last byte that a buffer of symbols admits before the
carry leaves the buffer. -/
def increments_before_overflow (cfg : Alphabet) (buf : List Nat) : Nat :=
  radix cfg ^ buf.length - 1 - value_of cfg buf

/-- The padding: the alphabet in order from `CInitialChar`, starting over after the last
symbol. -/
def pad_symbols (cfg : Alphabet) (n : Nat) : List Nat :=
  (List.range n).map fun k => symbol_of cfg (k % radix cfg)

/-- The symbols of the base-`radix` digits of a rank that come after its last zero digit,
most significant first; empty for rank 0 and for every multiple of the radix. -/
def rank_symbols (cfg : Alphabet) (r : Nat) : List Nat :=
  (((Nat.digits (radix cfg) r).takeWhile fun d => decide (d ≠ 0)).reverse).map (symbol_of cfg)

/-! ## The nibbles of a digest -/

/-- The nibbles of a digest in the order the rendering loop reads them:
`(hash[i] >> 4) & 15`, then `hash[i] & 15`. -/
def nibble_stream (hash : Digest) : List Nat :=
  (List.range CDigestLength).flatMap fun i =>
    [((hash.getD i 0) >>> 4) &&& 15, (hash.getD i 0) &&& 15]

/-- A nibble stream of the form: `z` nibbles 0, then the nibble `0xe`, then nibbles of at
most 9 only, to the end. -/
def zeros_e_decimal : Nat → List Nat → Bool
  | 0, [] => false
  | 0, n :: ns => (n == 0xe) && ns.all fun m => decide (m ≤ 9)
  | _ + 1, [] => false
  | z + 1, n :: ns => (n == 0) && zeros_e_decimal z ns

/-! ## The numeral of a rank -/

/-- The base-`radix` numeral of a rank written in symbols of the alphabet, most significant
digit first; empty for rank 0. -/
def digit_symbols (cfg : Alphabet) (r : Nat) : List Nat :=
  (Nat.digits (radix cfg) r).reverse.map (symbol_of cfg)

/-! ## The search loop -/

/-- How a bounded run of the search loop ends: with the reported message, with an access
outside the buffer, or still searching when the bound on the passes is reached. -/
inductive Outcome
  | found (message : List Nat)
  | out_of_bounds
  | still_searching
  deriving DecidableEq, Repr

/-- The `while (true)` loop of `main` without `mpi_continue`: hash `buf`; when the digest is
a match report the `CMessageLen` bytes of `buf` and `break`, otherwise advance `buf` and go
on.  `digest` stands for `SHA1Init`, `SHA1Update` over `buf` and `SHA1Final`; the first
argument bounds the number of passes. -/
def search_loop (cfg : Alphabet) (stepover_run : Bool) (mpi_total : Nat)
    (digest : List Nat → Digest) : Nat → List Nat → Outcome
  | 0, _ => .still_searching
  | fuel + 1, buf =>
    if is_phpmagic_buf (digest buf) = true then .found buf
    else
      match loop_advance cfg stepover_run mpi_total buf with
      | none => .out_of_bounds
      | some buf1 => search_loop cfg stepover_run mpi_total digest fuel buf1

/-! ## Bytes and nibbles -/

theorem and_15_eq_mod (x : Nat) : x &&& 15 = x % 16 :=
  Nat.and_pow_two_sub_one_eq_mod x 4

theorem shiftRight_4_eq_div (x : Nat) : x >>> 4 = x / 16 := by
  rw [Nat.shiftRight_eq_div_pow]

theorem is_digit_byte_iff (x : Nat) :
    is_digit_byte x = true ↔ x % 16 ≤ 9 ∧ x / 16 ≤ 9 := by
  simp [is_digit_byte, and_15_eq_mod, shiftRight_4_eq_div]

theorem is_edigit_byte_iff (x : Nat) :
    is_edigit_byte x = true ↔ x % 16 ≤ 9 ∧ x / 16 = 14 := by
  simp [is_edigit_byte, and_15_eq_mod, shiftRight_4_eq_div, CChar0E]

theorem dec2hex_eq_zero : ∀ n, n < 16 → ((dec2hex.getD n '?' == '0') = decide (n = 0)) := by
  decide

theorem dec2hex_eq_e : ∀ n, n < 16 → ((dec2hex.getD n '?' == 'e') = decide (n = 14)) := by
  decide

theorem dec2hex_isDigit : ∀ n, n < 16 → ((dec2hex.getD n '?').isDigit = decide (n ≤ 9)) := by
  decide

theorem length_eq_20 (b : List Nat) (h : b.length = 20) :
    ∃ b0 b1 b2 b3 b4 b5 b6 b7 b8 b9 b10 b11 b12 b13 b14 b15 b16 b17 b18 b19,
      b = [b0, b1, b2, b3, b4, b5, b6, b7, b8, b9, b10, b11, b12, b13, b14, b15, b16, b17,
        b18, b19] := by
  match b, h with
  | [b0, b1, b2, b3, b4, b5, b6, b7, b8, b9, b10, b11, b12, b13, b14, b15, b16, b17,
        b18, b19], _ => exact ⟨_, _, _, _, _, _, _, _, _, _, _, _, _, _, _, _, _, _, _, _, rfl⟩


theorem zeros_e_digits_append (z : Nat) (l1 l2 : List Char) (h : z < l1.length) :
    zeros_e_digits z (l1 ++ l2) = (zeros_e_digits z l1 && l2.all Char.isDigit) := by
  induction l1 generalizing z with
  | nil => simp at h
  | cons c cs ih =>
    cases z with
    | zero => simp [zeros_e_digits, Bool.and_assoc]
    | succ z =>
      have hz : z < cs.length := by simpa using h
      simp [zeros_e_digits, ih z hz, Bool.and_assoc]

theorem hash_code_eq (b0 b1 b2 b3 b4 b5 b6 b7 b8 b9 b10 b11 b12 b13 b14 b15 b16 b17 b18 b19 : Nat) :
    hash_code [b0, b1, b2, b3, b4, b5, b6, b7, b8, b9, b10, b11, b12, b13, b14, b15, b16, b17,
        b18, b19] =
      [hi_char b0, lo_char b0, hi_char b1, lo_char b1, hi_char b2, lo_char b2, hi_char b3,
        lo_char b3] ++
      [hi_char b4, lo_char b4, hi_char b5, lo_char b5, hi_char b6, lo_char b6, hi_char b7,
        lo_char b7, hi_char b8, lo_char b8, hi_char b9, lo_char b9, hi_char b10, lo_char b10,
        hi_char b11, lo_char b11, hi_char b12, lo_char b12, hi_char b13, lo_char b13,
        hi_char b14, lo_char b14, hi_char b15, lo_char b15, hi_char b16, lo_char b16,
        hi_char b17, lo_char b17, hi_char b18, lo_char b18, hi_char b19, lo_char b19] := by
  rfl

theorem hi_char_isDigit (x : Nat) (h : x < 256) : (hi_char x).isDigit = decide (x / 16 ≤ 9) := by
  unfold hi_char
  rw [shiftRight_4_eq_div, and_15_eq_mod, Nat.mod_eq_of_lt (by omega)]
  exact dec2hex_isDigit _ (by omega)

theorem lo_char_isDigit (x : Nat) : (lo_char x).isDigit = decide (x % 16 ≤ 9) := by
  unfold lo_char
  rw [and_15_eq_mod]
  exact dec2hex_isDigit _ (by omega)

theorem hi_char_zero (x : Nat) (h : x < 256) : (hi_char x == '0') = decide (x / 16 = 0) := by
  unfold hi_char
  rw [shiftRight_4_eq_div, and_15_eq_mod, Nat.mod_eq_of_lt (by omega)]
  exact dec2hex_eq_zero _ (by omega)

theorem lo_char_zero (x : Nat) : (lo_char x == '0') = decide (x % 16 = 0) := by
  unfold lo_char
  rw [and_15_eq_mod]
  exact dec2hex_eq_zero _ (by omega)

theorem hi_char_e (x : Nat) (h : x < 256) : (hi_char x == 'e') = decide (x / 16 = 14) := by
  unfold hi_char
  rw [shiftRight_4_eq_div, and_15_eq_mod, Nat.mod_eq_of_lt (by omega)]
  exact dec2hex_eq_e _ (by omega)

theorem lo_char_e (x : Nat) : (lo_char x == 'e') = decide (x % 16 = 14) := by
  unfold lo_char
  rw [and_15_eq_mod]
  exact dec2hex_eq_e _ (by omega)

theorem digit_pair (x : Nat) (h : x < 256) :
    ((hi_char x).isDigit && (lo_char x).isDigit) = is_digit_byte x := by
  rw [hi_char_isDigit x h, lo_char_isDigit, Bool.and_comm]
  simp [is_digit_byte, and_15_eq_mod, shiftRight_4_eq_div]


theorem nibbles_0e (x : Nat) (P : Prop) : (x / 16 = 0 ∧ x % 16 = 14 ∧ P) ↔ (x = 14 ∧ P) := by
  constructor
  · rintro ⟨h1, h2, hp⟩
    exact ⟨by omega, hp⟩
  · rintro ⟨h, hp⟩
    exact ⟨by omega, by omega, hp⟩

theorem nibbles_00 (x : Nat) (P : Prop) : (x / 16 = 0 ∧ x % 16 = 0 ∧ P) ↔ (x = 0 ∧ P) := by
  constructor
  · rintro ⟨h1, h2, hp⟩
    exact ⟨by omega, hp⟩
  · rintro ⟨h, hp⟩
    exact ⟨by omega, by omega, hp⟩

theorem nibbles_0e_last (x : Nat) : (x / 16 = 0 ∧ x % 16 = 14) ↔ x = 14 := by
  omega

theorem exists_le_seven (P : Nat → Prop) :
    (∃ z, 1 ≤ z ∧ z ≤ 7 ∧ P z) ↔ (P 1 ∨ P 2 ∨ P 3 ∨ P 4 ∨ P 5 ∨ P 6 ∨ P 7) := by
  constructor
  · rintro ⟨z, h1, h7, h⟩
    interval_cases z <;> simp [h]
  · rintro (h | h | h | h | h | h | h)
    exacts [⟨1, by omega, by omega, h⟩, ⟨2, by omega, by omega, h⟩, ⟨3, by omega, by omega, h⟩,
      ⟨4, by omega, by omega, h⟩, ⟨5, by omega, by omega, h⟩, ⟨6, by omega, by omega, h⟩,
      ⟨7, by omega, by omega, h⟩]

theorem phpmagic_iff_zeros_e_digits (b : Digest) (hb : is_digest b) :
    is_phpmagic_buf b = true ↔ ∃ z, 1 ≤ z ∧ z ≤ 7 ∧ zeros_e_digits z (hash_code b) = true := by
  obtain ⟨hlen, hbytes⟩ := hb
  obtain ⟨b0, b1, b2, b3, b4, b5, b6, b7, b8, b9, b10, b11, b12, b13, b14, b15, b16, b17, b18,
    b19, rfl⟩ := length_eq_20 b hlen
  simp only [List.mem_cons, List.mem_singleton, forall_eq_or_imp, forall_eq, List.not_mem_nil,
    false_implies, implies_true, and_true] at hbytes
  obtain ⟨h0, h1, h2, h3, h4, h5, h6, h7, h8, h9, h10, h11, h12, h13, h14, h15, h16, h17, h18,
    h19⟩ := hbytes
  rw [exists_le_seven, hash_code_eq]
  have hT : is_phpmagic_4up [b0, b1, b2, b3, b4, b5, b6, b7, b8, b9, b10, b11, b12, b13, b14, b15,
      b16, b17, b18, b19] =
      List.all [hi_char b4, lo_char b4, hi_char b5, lo_char b5, hi_char b6, lo_char b6, hi_char b7,
        lo_char b7, hi_char b8, lo_char b8, hi_char b9, lo_char b9, hi_char b10, lo_char b10,
        hi_char b11, lo_char b11, hi_char b12, lo_char b12, hi_char b13, lo_char b13,
        hi_char b14, lo_char b14, hi_char b15, lo_char b15, hi_char b16, lo_char b16,
        hi_char b17, lo_char b17, hi_char b18, lo_char b18, hi_char b19, lo_char b19]
        Char.isDigit := by
    simp only [is_phpmagic_4up, List.getD_cons_succ, List.getD_cons_zero, List.all_cons,
      List.all_nil, Bool.and_true, ← digit_pair, h4, h5, h6, h7, h8, h9, h10, h11, h12, h13, h14,
      h15, h16, h17, h18, h19, Bool.and_assoc]
  have happ : ∀ z, z < 8 → ∀ (c0 c1 c2 c3 c4 c5 c6 c7 : Char) (l2 : List Char),
      zeros_e_digits z ([c0, c1, c2, c3, c4, c5, c6, c7] ++ l2) =
        (zeros_e_digits z [c0, c1, c2, c3, c4, c5, c6, c7] && l2.all Char.isDigit) :=
    fun z hz c0 c1 c2 c3 c4 c5 c6 c7 l2 => zeros_e_digits_append z _ l2 (by simpa using hz)
  simp only [happ 1 (by omega), happ 2 (by omega), happ 3 (by omega), happ 4 (by omega),
    happ 5 (by omega), happ 6 (by omega), happ 7 (by omega), ← hT]
  clear happ hT
  simp only [is_phpmagic_buf, is_from_b2_after_zero, is_nothex_from_b3, List.getD_cons_succ,
    List.getD_cons_zero]
  generalize is_phpmagic_4up _ = T
  simp only [zeros_e_digits, List.all_cons, List.all_nil, hi_char_zero _ h0, hi_char_zero _ h1,
    hi_char_zero _ h2, hi_char_zero _ h3, lo_char_zero, hi_char_e _ h0, hi_char_e _ h1,
    hi_char_e _ h2, hi_char_e _ h3, lo_char_e, hi_char_isDigit _ h0, hi_char_isDigit _ h1,
    hi_char_isDigit _ h2, hi_char_isDigit _ h3, lo_char_isDigit, CChar0E, CChar00]
  cases T
  · simp
  · clear hlen
    simp only [is_digit_byte_iff, is_edigit_byte_iff, nibbles_0e, nibbles_00, nibbles_0e_last,
      Bool.and_true, Bool.and_eq_true, decide_eq_true_eq, Bool.if_false_right, Bool.or_eq_true,
      Bool.decide_and, Bool.decide_or, Bool.decide_eq_true, Bool.ite_eq_true_distrib]
    split_ifs with c0 c1 c2 c3 c4 <;> simp [*] <;> omega


/-! ## The structural predicate: the claims -/

theorem forall_one_to_19 (P : Nat → Prop) :
    (∀ i, 1 ≤ i → i ≤ 19 → P i) ↔
      (P 1 ∧ P 2 ∧ P 3 ∧ P 4 ∧ P 5 ∧ P 6 ∧ P 7 ∧ P 8 ∧ P 9 ∧ P 10 ∧ P 11 ∧ P 12 ∧ P 13 ∧ P 14 ∧
        P 15 ∧ P 16 ∧ P 17 ∧ P 18 ∧ P 19) := by
  constructor
  · intro h
    exact ⟨h 1 (by omega) (by omega), h 2 (by omega) (by omega), h 3 (by omega) (by omega),
      h 4 (by omega) (by omega), h 5 (by omega) (by omega), h 6 (by omega) (by omega),
      h 7 (by omega) (by omega), h 8 (by omega) (by omega), h 9 (by omega) (by omega),
      h 10 (by omega) (by omega), h 11 (by omega) (by omega), h 12 (by omega) (by omega),
      h 13 (by omega) (by omega), h 14 (by omega) (by omega), h 15 (by omega) (by omega),
      h 16 (by omega) (by omega), h 17 (by omega) (by omega), h 18 (by omega) (by omega),
      h 19 (by omega) (by omega)⟩
  · intro h i h1 h19
    interval_cases i <;> simp [h]

/-- With byte 0 equal to `0x0e` the predicate asks exactly for digit bytes at 1 to 19. -/
theorem phpmagic_of_0e (b : Digest) (hb : is_digest b) (h0 : b.getD 0 0 = 0x0e) :
    is_phpmagic_buf b = true ↔ ∀ i, 1 ≤ i → i ≤ 19 → is_digit_byte (b.getD i 0) = true := by
  obtain ⟨hlen, -⟩ := hb
  obtain ⟨b0, b1, b2, b3, b4, b5, b6, b7, b8, b9, b10, b11, b12, b13, b14, b15, b16, b17, b18,
    b19, rfl⟩ := length_eq_20 b hlen
  rw [forall_one_to_19]
  simp only [List.getD_cons_zero] at h0
  subst h0
  simp [is_phpmagic_buf, is_nothex_from_b3, is_phpmagic_4up, CChar0E, and_assoc]

/-- C2: for a digest whose byte 0 is `0x0e`, `is_phpmagic_buf` is true exactly when bytes 1 to
19 are all digit bytes; the sample digest `0e 26 37 93 ... 68 00` is accepted. -/
theorem is_phpmagic_buf_byte0_0e (b : Digest) (hb : is_digest b) (h0 : b.getD 0 0 = 0x0e) :
    (is_phpmagic_buf b = true ↔ ∀ i, 1 ≤ i → i ≤ 19 → is_digit_byte (b.getD i 0) = true) ∧
      is_phpmagic_buf
        [0x0e, 0x26, 0x37, 0x93, 0x74, 0x77, 0x03, 0x52, 0x02, 0x46,
         0x66, 0x14, 0x89, 0x68, 0x86, 0x85, 0x66, 0x57, 0x68, 0x00] = true :=
  ⟨phpmagic_of_0e b hb h0, by decide⟩

theorem is_phpmagic_buf_byte0_0e_witness :
    is_digest sample_0e ∧ sample_0e.getD 0 0 = 0x0e ∧
      ((is_phpmagic_buf sample_0e = true ↔
          ∀ i, 1 ≤ i → i ≤ 19 → is_digit_byte (sample_0e.getD i 0) = true) ∧
        is_phpmagic_buf
          [0x0e, 0x26, 0x37, 0x93, 0x74, 0x77, 0x03, 0x52, 0x02, 0x46,
           0x66, 0x14, 0x89, 0x68, 0x86, 0x85, 0x66, 0x57, 0x68, 0x00] = true) :=
  ⟨by decide, by decide, is_phpmagic_buf_byte0_0e sample_0e (by decide) (by decide)⟩

/-- C1, as the claim states it, fails: the header sample `00e0209539...` is accepted although
its rendering is none of `0e` + 38 digits, `000e` + 36 digits, `00000e` + 34 digits. -/
theorem three_forms_refuted :
    ¬ ∀ b : Digest, is_digest b →
      (is_phpmagic_buf b = true ↔
        (zeros_e_digits 1 (hash_code b) = true ∨ zeros_e_digits 3 (hash_code b) = true ∨
          zeros_e_digits 5 (hash_code b) = true)) := by
  intro h
  have h1 := h sample_00e_upper (by decide)
  revert h1
  decide

/-- C1, amended: a digest is accepted exactly when its 40-character rendering is `z` zeros
for some `1 ≤ z ≤ 7`, then `e`, then decimal digits only. -/
theorem is_phpmagic_buf_iff_rendering (b : Digest) (hb : is_digest b) :
    (hash_code b).length = 40 ∧
      (is_phpmagic_buf b = true ↔
        ∃ z, 1 ≤ z ∧ z ≤ 7 ∧ zeros_e_digits z (hash_code b) = true) := by
  refine ⟨?_, phpmagic_iff_zeros_e_digits b hb⟩
  obtain ⟨b0, b1, b2, b3, b4, b5, b6, b7, b8, b9, b10, b11, b12, b13, b14, b15, b16, b17, b18,
    b19, rfl⟩ := length_eq_20 b hb.1
  rw [hash_code_eq]
  rfl

theorem is_phpmagic_buf_iff_rendering_witness :
    is_digest sample_00e_mixed ∧
      ((hash_code sample_00e_mixed).length = 40 ∧
        (is_phpmagic_buf sample_00e_mixed = true ↔
          ∃ z, 1 ≤ z ∧ z ≤ 7 ∧ zeros_e_digits z (hash_code sample_00e_mixed) = true)) :=
  ⟨by decide, is_phpmagic_buf_iff_rendering sample_00e_mixed (by decide)⟩

/-- C9, as the claim states it, fails at `k = 4`. -/
theorem leading_zero_bytes_refuted :
    ¬ ∀ k, 1 ≤ k → k ≤ 18 → ∀ b : Digest, is_digest b →
      (∀ i, i < k → b.getD i 0 = 0x00) → b.getD k 0 = 0x0e →
      (∀ i, k < i → i ≤ 19 → is_digit_byte (b.getD i 0) = true) →
      is_phpmagic_buf b = true := by
  intro h
  have h4 := h 4 (by decide) (by decide) four_zero_bytes_0e (by decide) (by decide) (by decide)
    (by intro i h1 h2; interval_cases i <;> decide)
  revert h4
  decide

/-- C9, amended: a digest made of `k` zero bytes (`1 ≤ k ≤ 18`), the byte `0x0e` and digit
bytes to the end is accepted when `k ≤ 3`, and only then. -/
theorem leading_zero_bytes_accepted_iff (k : Nat) (b : Digest) (hk1 : 1 ≤ k) (hk18 : k ≤ 18)
    (hb : is_digest b) (hz : ∀ i, i < k → b.getD i 0 = 0x00) (he : b.getD k 0 = 0x0e)
    (hd : ∀ i, k < i → i ≤ 19 → is_digit_byte (b.getD i 0) = true) :
    is_phpmagic_buf b = true ↔ k ≤ 3 := by
  obtain ⟨b0, b1, b2, b3, b4, b5, b6, b7, b8, b9, b10, b11, b12, b13, b14, b15, b16, b17, b18,
    b19, rfl⟩ := length_eq_20 b hb.1
  have z0 := hz 0
  have z1 := hz 1
  have z2 := hz 2
  have z3 := hz 3
  have d := (forall_one_to_19 (fun i => k < i → is_digit_byte (List.getD
    [b0, b1, b2, b3, b4, b5, b6, b7, b8, b9, b10, b11, b12, b13, b14, b15, b16, b17, b18, b19]
    i 0) = true)).1 (fun i _ hi hki => hd i hki hi)
  clear hz hd hb
  simp only [List.getD_cons_succ, List.getD_cons_zero] at z0 z1 z2 z3 d
  obtain ⟨d1, d2, d3, d4, d5, d6, d7, d8, d9, d10, d11, d12, d13, d14, d15, d16, d17, d18, d19⟩ := d
  by_cases hk : k ≤ 3
  · simp only [hk, iff_true]
    interval_cases k
    · simp only [List.getD_cons_succ, List.getD_cons_zero] at he
      simp [is_phpmagic_buf, is_from_b2_after_zero, is_nothex_from_b3, is_phpmagic_4up, CChar0E,
        CChar00, *]
    · simp only [List.getD_cons_succ, List.getD_cons_zero] at he
      simp [is_phpmagic_buf, is_from_b2_after_zero, is_nothex_from_b3, is_phpmagic_4up, CChar0E,
        CChar00, *]
    · simp only [List.getD_cons_succ, List.getD_cons_zero] at he
      simp [is_phpmagic_buf, is_from_b2_after_zero, is_nothex_from_b3, is_phpmagic_4up, CChar0E,
        CChar00, *]
  · simp only [hk, iff_false]
    have e0 := z0 (by omega)
    have e1 := z1 (by omega)
    have e2 := z2 (by omega)
    have e3 := z3 (by omega)
    subst e0 e1 e2 e3
    simp [is_phpmagic_buf, is_from_b2_after_zero, CChar0E, CChar00, is_edigit_byte]

theorem leading_zero_bytes_accepted_iff_witness :
    1 ≤ 4 ∧ 4 ≤ 18 ∧ is_digest four_zero_bytes_0e ∧
      (∀ i, i < 4 → four_zero_bytes_0e.getD i 0 = 0x00) ∧ four_zero_bytes_0e.getD 4 0 = 0x0e ∧
      (∀ i, 4 < i → i ≤ 19 → is_digit_byte (four_zero_bytes_0e.getD i 0) = true) ∧
      (is_phpmagic_buf four_zero_bytes_0e = true ↔ 4 ≤ 3) :=
  ⟨by decide, by decide, by decide, by decide, by decide,
    by intro i h1 h2; interval_cases i <;> decide,
    leading_zero_bytes_accepted_iff 4 four_zero_bytes_0e (by decide) (by decide) (by decide)
      (by decide) (by decide) (by intro i h1 h2; interval_cases i <;> decide)⟩

/-- C10: a digest with byte 0 equal to `0x00`, byte 1 in `0xe0..0xe9` and digit bytes from 2
to 19 renders as `00e` followed by decimal digits and is accepted; so are the two header
samples of this form. -/
theorem is_phpmagic_buf_00e (b : Digest) (hb : is_digest b) (h0 : b.getD 0 0 = 0x00)
    (h1 : 0xe0 ≤ b.getD 1 0 ∧ b.getD 1 0 ≤ 0xe9)
    (hd : ∀ i, 2 ≤ i → i ≤ 19 → is_digit_byte (b.getD i 0) = true) :
    (zeros_e_digits 2 (hash_code b) = true ∧ (hash_code b).length = 40 ∧
        is_phpmagic_buf b = true) ∧
      hash_code sample_00e_upper = "00e0209539108131630074694125235505223102".toList ∧
      is_phpmagic_buf sample_00e_upper = true ∧
      hash_code sample_00e_mixed = "00e6970695351422324349039381794949865825".toList ∧
      is_phpmagic_buf sample_00e_mixed = true := by
  refine ⟨?_, by decide, by decide, by decide, by decide⟩
  have hform : zeros_e_digits 2 (hash_code b) = true ∧ (hash_code b).length = 40 := by
    obtain ⟨hlen, hbytes⟩ := hb
    obtain ⟨b0, b1, b2, b3, b4, b5, b6, b7, b8, b9, b10, b11, b12, b13, b14, b15, b16, b17, b18,
      b19, rfl⟩ := length_eq_20 b hlen
    have d := (forall_one_to_19 (fun i => 2 ≤ i → is_digit_byte (List.getD
      [b0, b1, b2, b3, b4, b5, b6, b7, b8, b9, b10, b11, b12, b13, b14, b15, b16, b17, b18, b19]
      i 0) = true)).1 (fun i _ hi h2 => hd i h2 hi)
    simp only [List.getD_cons_succ, List.getD_cons_zero, is_digit_byte_iff] at h0 h1 d
    obtain ⟨-, d2, d3, d4, d5, d6, d7, d8, d9, d10, d11, d12, d13, d14, d15, d16, d17, d18,
      d19⟩ := d
    rw [hash_code_eq]
    refine ⟨?_, rfl⟩
    simp only [List.cons_append, List.nil_append, zeros_e_digits, List.append_eq, List.all_cons,
      List.all_nil,
      lo_char_zero, lo_char_isDigit, Bool.and_true, Bool.and_eq_true, decide_eq_true_eq,
      hi_char_zero b0 (by omega), hi_char_e b1 (by omega),
      hi_char_isDigit b2 (by omega), hi_char_isDigit b3 (by omega), hi_char_isDigit b4 (by omega),
      hi_char_isDigit b5 (by omega), hi_char_isDigit b6 (by omega), hi_char_isDigit b7 (by omega),
      hi_char_isDigit b8 (by omega), hi_char_isDigit b9 (by omega),
      hi_char_isDigit b10 (by omega), hi_char_isDigit b11 (by omega),
      hi_char_isDigit b12 (by omega), hi_char_isDigit b13 (by omega),
      hi_char_isDigit b14 (by omega), hi_char_isDigit b15 (by omega),
      hi_char_isDigit b16 (by omega), hi_char_isDigit b17 (by omega),
      hi_char_isDigit b18 (by omega), hi_char_isDigit b19 (by omega)]
    refine ⟨by omega, by omega, by omega, by omega, ?_⟩
    have g2 := d2 (by omega)
    have g3 := d3 (by omega)
    have g4 := d4 (by omega)
    have g5 := d5 (by omega)
    have g6 := d6 (by omega)
    have g7 := d7 (by omega)
    have g8 := d8 (by omega)
    have g9 := d9 (by omega)
    have g10 := d10 (by omega)
    have g11 := d11 (by omega)
    have g12 := d12 (by omega)
    have g13 := d13 (by omega)
    have g14 := d14 (by omega)
    have g15 := d15 (by omega)
    have g16 := d16 (by omega)
    have g17 := d17 (by omega)
    have g18 := d18 (by omega)
    have g19 := d19 (by omega)
    simp [g2, g3, g4, g5, g6, g7, g8, g9, g10, g11, g12, g13, g14, g15, g16, g17, g18, g19]
  exact ⟨hform.1, hform.2, (phpmagic_iff_zeros_e_digits b hb).2 ⟨2, by omega, by omega, hform.1⟩⟩

theorem is_phpmagic_buf_00e_witness :
    is_digest sample_00e_upper ∧ sample_00e_upper.getD 0 0 = 0x00 ∧
      (0xe0 ≤ sample_00e_upper.getD 1 0 ∧ sample_00e_upper.getD 1 0 ≤ 0xe9) ∧
      (∀ i, 2 ≤ i → i ≤ 19 → is_digit_byte (sample_00e_upper.getD i 0) = true) ∧
      ((zeros_e_digits 2 (hash_code sample_00e_upper) = true ∧
          (hash_code sample_00e_upper).length = 40 ∧
          is_phpmagic_buf sample_00e_upper = true) ∧
        hash_code sample_00e_upper = "00e0209539108131630074694125235505223102".toList ∧
        is_phpmagic_buf sample_00e_upper = true ∧
        hash_code sample_00e_mixed = "00e6970695351422324349039381794949865825".toList ∧
        is_phpmagic_buf sample_00e_mixed = true) :=
  ⟨by decide, by decide, by decide, by decide,
    is_phpmagic_buf_00e sample_00e_upper (by decide) (by decide) (by decide) (by decide)⟩

/-! ## The six counters are one carry walk -/

theorem increment_char_short_eq_carry_walk (cfg : Alphabet) (c : Nat) (buf : List Nat) :
    increment_char_short cfg c buf = carry_walk cfg c buf := by
  induction c generalizing buf with
  | zero =>
    cases cfg <;>
      simp only [increment_char_short] <;>
      first
      | rw [increment_char_digits, carry_walk]
      | rw [increment_char_lowercase, carry_walk]
      | rw [increment_char_uppercase, carry_walk]
      | rw [increment_char_mixedcase, carry_walk]
      | rw [increment_char_mixedcase_with_digits, carry_walk]
      | rw [increment_char_mixedcase_with_digits_and_punctuation, carry_walk]
    all_goals
      cases buf[0]? with
      | none => rfl
      | some a =>
        simp only [last_symbol, next_byte, CInitialChar] <;>
          (split_ifs <;> first | rfl | omega)
  | succ c ih =>
    cases cfg <;>
      simp only [increment_char_short] at ih ⊢ <;>
      first
      | rw [increment_char_digits, carry_walk]
      | rw [increment_char_lowercase, carry_walk]
      | rw [increment_char_uppercase, carry_walk]
      | rw [increment_char_mixedcase, carry_walk]
      | rw [increment_char_mixedcase_with_digits, carry_walk]
      | rw [increment_char_mixedcase_with_digits_and_punctuation, carry_walk]
    all_goals
      cases buf[c + 1]? with
      | none => rfl
      | some a =>
        simp only [last_symbol, next_byte, CInitialChar, ih] <;>
          (split_ifs <;> first | rfl | omega)

/-! ## The successor chain of each alphabet -/

theorem radix_ge_two (cfg : Alphabet) : 2 ≤ radix cfg := by
  cases cfg <;> simp [radix]

theorem radix_pos (cfg : Alphabet) : 0 < radix cfg :=
  Nat.lt_of_lt_of_le (by decide) (radix_ge_two cfg)

theorem is_symbol_initial (cfg : Alphabet) : is_symbol cfg (CInitialChar cfg) = true := by
  cases cfg <;> decide

theorem digit_of_initial (cfg : Alphabet) : digit_of cfg (CInitialChar cfg) = 0 := by
  cases cfg <;> decide

theorem is_symbol_last (cfg : Alphabet) : is_symbol cfg (last_symbol cfg) = true := by
  cases cfg <;> decide

theorem digit_of_last (cfg : Alphabet) : digit_of cfg (last_symbol cfg) = radix cfg - 1 := by
  cases cfg <;> decide

theorem initial_ne_last (cfg : Alphabet) : CInitialChar cfg ≠ last_symbol cfg := by
  cases cfg <;> decide

theorem is_symbol_next (cfg : Alphabet) (a : Nat) (hs : is_symbol cfg a = true)
    (hl : a ≠ last_symbol cfg) : is_symbol cfg (next_byte cfg a) = true := by
  cases cfg <;> simp only [is_symbol, next_byte, last_symbol, decide_eq_true_eq] at hs hl ⊢ <;>
    (try split_ifs) <;> omega

theorem digit_of_next (cfg : Alphabet) (a : Nat) (hs : is_symbol cfg a = true)
    (hl : a ≠ last_symbol cfg) : digit_of cfg (next_byte cfg a) = digit_of cfg a + 1 := by
  cases cfg <;> simp only [is_symbol, next_byte, last_symbol, digit_of, decide_eq_true_eq] at hs hl ⊢ <;>
    (try split_ifs) <;> omega

theorem digit_of_lt (cfg : Alphabet) (a : Nat) (hs : is_symbol cfg a = true) :
    digit_of cfg a < radix cfg := by
  cases cfg <;> simp only [is_symbol, radix, digit_of, decide_eq_true_eq] at hs ⊢ <;>
    (try split_ifs) <;> omega

theorem symbol_of_digit_of (cfg : Alphabet) (a : Nat) (hs : is_symbol cfg a = true) :
    symbol_of cfg (digit_of cfg a) = a := by
  cases cfg <;> simp only [is_symbol, symbol_of, digit_of, decide_eq_true_eq] at hs ⊢ <;>
    (try split_ifs) <;> omega

theorem is_symbol_symbol_of (cfg : Alphabet) (d : Nat) (hd : d < radix cfg) :
    is_symbol cfg (symbol_of cfg d) = true := by
  cases cfg <;> simp only [is_symbol, symbol_of, radix, decide_eq_true_eq] at hd ⊢ <;>
    (try split_ifs) <;> omega

theorem digit_of_symbol_of (cfg : Alphabet) (d : Nat) (hd : d < radix cfg) :
    digit_of cfg (symbol_of cfg d) = d := by
  cases cfg <;> simp only [symbol_of, radix, digit_of] at hd ⊢ <;>
    (try split_ifs) <;> omega

theorem digit_of_eq_zero (cfg : Alphabet) (a : Nat) (hs : is_symbol cfg a = true)
    (h0 : digit_of cfg a = 0) : a = CInitialChar cfg := by
  have h := symbol_of_digit_of cfg a hs
  rw [h0] at h
  rw [← h]
  cases cfg <;> rfl

theorem digit_of_eq_last (cfg : Alphabet) (a : Nat) (hs : is_symbol cfg a = true)
    (h0 : digit_of cfg a = radix cfg - 1) : a = last_symbol cfg := by
  have h := symbol_of_digit_of cfg a hs
  rw [h0] at h
  rw [← h]
  cases cfg <;> rfl

/-! ## The carry walk on a buffer split at the byte where it stops -/

theorem carry_walk_of_ne (cfg : Alphabet) (c : Nat) (buf : List Nat) (a : Nat)
    (ha : buf[c]? = some a) (hne : a ≠ last_symbol cfg) :
    carry_walk cfg c buf = some (buf.set c (next_byte cfg a)) := by
  cases c <;> simp [carry_walk, ha, hne]

theorem carry_walk_of_last (cfg : Alphabet) (c : Nat) (buf : List Nat)
    (ha : buf[c + 1]? = some (last_symbol cfg)) :
    carry_walk cfg (c + 1) buf = carry_walk cfg c (buf.set (c + 1) (CInitialChar cfg)) := by
  simp [carry_walk, ha]

theorem carry_walk_zero_last (cfg : Alphabet) (buf : List Nat)
    (ha : buf[0]? = some (last_symbol cfg)) : carry_walk cfg 0 buf = none := by
  simp [carry_walk, ha]

theorem carry_walk_outside (cfg : Alphabet) (c : Nat) (buf : List Nat) (ha : buf[c]? = none) :
    carry_walk cfg c buf = none := by
  cases c <;> simp [carry_walk, ha]

theorem carry_walk_stop (cfg : Alphabet) (x : Nat) (hx : x ≠ last_symbol cfg) (n : Nat) :
    ∀ (pre post : List Nat),
      carry_walk cfg (pre.length + n)
          (pre ++ x :: (List.replicate n (last_symbol cfg) ++ post)) =
        some (pre ++ next_byte cfg x :: (List.replicate n (CInitialChar cfg) ++ post)) := by
  induction n with
  | zero =>
    intro pre post
    have hget : (pre ++ x :: (List.replicate 0 (last_symbol cfg) ++ post))[pre.length + 0]? =
        some x := by
      rw [List.getElem?_append_right (by omega)]
      simp
    rw [carry_walk_of_ne cfg _ _ x hget hx]
    simp
  | succ n ih =>
    intro pre post
    have hbuf : pre ++ x :: (List.replicate (n + 1) (last_symbol cfg) ++ post) =
        (pre ++ x :: List.replicate n (last_symbol cfg)) ++ last_symbol cfg :: post := by
      simp [List.replicate_succ']
    have hlen : (pre ++ x :: List.replicate n (last_symbol cfg)).length = pre.length + n + 1 := by
      simp [Nat.add_assoc]
    have hget : ((pre ++ x :: List.replicate n (last_symbol cfg)) ++
        last_symbol cfg :: post)[pre.length + n + 1]? = some (last_symbol cfg) := by
      rw [← hlen, List.getElem?_append_right (Nat.le_refl _)]
      simp
    have hset : ((pre ++ x :: List.replicate n (last_symbol cfg)) ++ last_symbol cfg :: post).set
        (pre.length + n + 1) (CInitialChar cfg) =
        pre ++ x :: (List.replicate n (last_symbol cfg) ++ CInitialChar cfg :: post) := by
      rw [← hlen, List.set_append_right _ _ (Nat.le_refl _)]
      simp
    rw [hbuf, ← Nat.add_assoc, carry_walk_of_last cfg _ _ hget, hset,
      ih pre (CInitialChar cfg :: post)]
    simp [List.replicate_succ']

theorem carry_walk_overflow (cfg : Alphabet) (n : Nat) :
    ∀ post : List Nat,
      carry_walk cfg n (List.replicate (n + 1) (last_symbol cfg) ++ post) = none := by
  induction n with
  | zero =>
    intro post
    exact carry_walk_zero_last cfg _ (by simp)
  | succ n ih =>
    intro post
    have hbuf : List.replicate (n + 1 + 1) (last_symbol cfg) ++ post =
        List.replicate (n + 1) (last_symbol cfg) ++ last_symbol cfg :: post := by
      simp [List.replicate_succ' (n + 1)]
    have hlen : (List.replicate (n + 1) (last_symbol cfg)).length = n + 1 := by simp
    have hget : (List.replicate (n + 1) (last_symbol cfg) ++
        last_symbol cfg :: post)[n + 1]? = some (last_symbol cfg) := by
      nth_rewrite 2 [← hlen]
      rw [List.getElem?_append_right (Nat.le_refl _)]
      simp
    have hset : (List.replicate (n + 1) (last_symbol cfg) ++ last_symbol cfg :: post).set
        (n + 1) (CInitialChar cfg) =
        List.replicate (n + 1) (last_symbol cfg) ++ CInitialChar cfg :: post := by
      nth_rewrite 2 [← hlen]
      rw [List.set_append_right _ _ (Nat.le_refl _)]
      simp
    rw [hbuf, carry_walk_of_last cfg _ _ hget, hset, ih]

theorem carry_walk_append (cfg : Alphabet) (c : Nat) :
    ∀ (pre post : List Nat), c < pre.length →
      carry_walk cfg c (pre ++ post) = (carry_walk cfg c pre).map (fun l => l ++ post) := by
  induction c with
  | zero =>
    intro pre post hc
    have hget : (pre ++ post)[0]? = pre[0]? := List.getElem?_append_left hc
    obtain ⟨a, ha⟩ : ∃ a, pre[0]? = some a := ⟨pre[0], List.getElem?_eq_getElem hc⟩
    by_cases hl : a = last_symbol cfg
    · subst hl
      rw [carry_walk_zero_last cfg _ (hget.trans ha), carry_walk_zero_last cfg _ ha]
      rfl
    · rw [carry_walk_of_ne cfg _ _ a (hget.trans ha) hl, carry_walk_of_ne cfg _ _ a ha hl,
        List.set_append_left _ _ hc]
      rfl
  | succ c ih =>
    intro pre post hc
    have hget : (pre ++ post)[c + 1]? = pre[c + 1]? := List.getElem?_append_left hc
    obtain ⟨a, ha⟩ : ∃ a, pre[c + 1]? = some a := ⟨pre[c + 1], List.getElem?_eq_getElem hc⟩
    by_cases hl : a = last_symbol cfg
    · subst hl
      rw [carry_walk_of_last cfg _ _ (hget.trans ha), carry_walk_of_last cfg _ _ ha,
        List.set_append_left _ _ hc]
      exact ih _ post (by simp; omega)
    · rw [carry_walk_of_ne cfg _ _ a (hget.trans ha) hl, carry_walk_of_ne cfg _ _ a ha hl,
        List.set_append_left _ _ hc]
      rfl

/-- A run of wrapping symbols under the cursor is reset and the walk goes on to their left. -/
theorem carry_walk_through (cfg : Alphabet) (n : Nat) :
    ∀ (pre post : List Nat),
      carry_walk cfg (pre.length + n)
          (pre ++ (last_symbol cfg :: List.replicate n (last_symbol cfg) ++ post)) =
        carry_walk cfg (pre.length)
          (pre ++ (last_symbol cfg :: List.replicate n (CInitialChar cfg) ++ post)) := by
  induction n with
  | zero => intro pre post; rfl
  | succ n ih =>
    intro pre post
    have hbuf : pre ++ (last_symbol cfg :: List.replicate (n + 1) (last_symbol cfg) ++ post) =
        (pre ++ last_symbol cfg :: List.replicate n (last_symbol cfg)) ++
          last_symbol cfg :: post := by
      simp [List.replicate_succ']
    have hlen : (pre ++ last_symbol cfg :: List.replicate n (last_symbol cfg)).length =
        pre.length + n + 1 := by
      simp [Nat.add_assoc]
    have hget : ((pre ++ last_symbol cfg :: List.replicate n (last_symbol cfg)) ++
        last_symbol cfg :: post)[pre.length + n + 1]? = some (last_symbol cfg) := by
      rw [← hlen, List.getElem?_append_right (Nat.le_refl _)]
      simp
    have hset : ((pre ++ last_symbol cfg :: List.replicate n (last_symbol cfg)) ++
        last_symbol cfg :: post).set (pre.length + n + 1) (CInitialChar cfg) =
        pre ++ (last_symbol cfg :: List.replicate n (last_symbol cfg) ++
          CInitialChar cfg :: post) := by
      rw [← hlen, List.set_append_right _ _ (Nat.le_refl _)]
      simp
    rw [hbuf, ← Nat.add_assoc, carry_walk_of_last cfg _ _ hget, hset,
      ih pre (CInitialChar cfg :: post)]
    simp [List.replicate_succ']

/-! ## The value of a run of symbols -/

theorem foldl_value (cfg : Alphabet) (l : List Nat) :
    ∀ init : Nat, l.foldl (fun acc a => acc * radix cfg + digit_of cfg a) init =
      init * radix cfg ^ l.length + value_of cfg l := by
  induction l with
  | nil => intro init; simp [value_of]
  | cons a l ih =>
    intro init
    simp only [value_of, List.foldl_cons, List.length_cons]
    rw [ih (init * radix cfg + digit_of cfg a), ih (0 * radix cfg + digit_of cfg a)]
    ring

theorem value_of_nil (cfg : Alphabet) : value_of cfg [] = 0 := rfl

theorem value_of_cons (cfg : Alphabet) (a : Nat) (l : List Nat) :
    value_of cfg (a :: l) = digit_of cfg a * radix cfg ^ l.length + value_of cfg l := by
  simp only [value_of, List.foldl_cons]
  rw [foldl_value]
  simp [value_of]

theorem value_of_append (cfg : Alphabet) (l1 l2 : List Nat) :
    value_of cfg (l1 ++ l2) = value_of cfg l1 * radix cfg ^ l2.length + value_of cfg l2 := by
  simp only [value_of, List.foldl_append]
  rw [foldl_value]
  simp [value_of]

theorem value_of_replicate_initial (cfg : Alphabet) (n : Nat) :
    value_of cfg (List.replicate n (CInitialChar cfg)) = 0 := by
  induction n with
  | zero => rfl
  | succ n ih => simp [List.replicate_succ, value_of_cons, ih, digit_of_initial]

theorem value_of_replicate_last (cfg : Alphabet) (n : Nat) :
    value_of cfg (List.replicate n (last_symbol cfg)) + 1 = radix cfg ^ n := by
  induction n with
  | zero => rfl
  | succ n ih =>
    have hr := radix_pos cfg
    simp only [List.replicate_succ, value_of_cons, digit_of_last, List.length_replicate]
    obtain ⟨r, hr⟩ : ∃ r, radix cfg = r + 1 := ⟨radix cfg - 1, by omega⟩
    rw [hr] at ih ⊢
    simp only [Nat.add_sub_cancel]
    rw [Nat.add_assoc, ih]
    ring

theorem value_of_lt (cfg : Alphabet) (l : List Nat) (hs : ∀ a ∈ l, is_symbol cfg a = true) :
    value_of cfg l < radix cfg ^ l.length := by
  induction l with
  | nil => simp [value_of]
  | cons a l ih =>
    have h1 := digit_of_lt cfg a (hs a (by simp))
    have h2 := ih (fun b hb => hs b (by simp [hb]))
    rw [value_of_cons, List.length_cons, pow_succ]
    calc digit_of cfg a * radix cfg ^ l.length + value_of cfg l
        < digit_of cfg a * radix cfg ^ l.length + radix cfg ^ l.length := by omega
      _ = (digit_of cfg a + 1) * radix cfg ^ l.length := by ring
      _ ≤ radix cfg * radix cfg ^ l.length := Nat.mul_le_mul_right _ h1
      _ = radix cfg ^ l.length * radix cfg := by ring

/-- Every run either ends in a byte other than the wrapping symbol followed by wrapping
symbols only, or consists of wrapping symbols only. -/
theorem trailing_last_cases (cfg : Alphabet) (l : List Nat) :
    (∃ pre x n, l = pre ++ x :: List.replicate n (last_symbol cfg) ∧ x ≠ last_symbol cfg) ∨
      l = List.replicate l.length (last_symbol cfg) := by
  induction l with
  | nil => right; rfl
  | cons a l ih =>
    rcases ih with ⟨pre, x, n, hl, hx⟩ | hall
    · left
      exact ⟨a :: pre, x, n, by rw [hl]; rfl, hx⟩
    · by_cases ha : a = last_symbol cfg
      · right
        rw [List.length_cons, List.replicate_succ, ← hall, ha]
      · left
        exact ⟨[], a, l.length, by rw [← hall]; rfl, ha⟩

/-! ## One increment adds one -/

theorem not_all_last_of_value (cfg : Alphabet) (l : List Nat)
    (h : value_of cfg l + 1 < radix cfg ^ l.length) :
    ∃ a ∈ l, a ≠ last_symbol cfg := by
  by_contra hcon
  push_neg at hcon
  have hl : l = List.replicate l.length (last_symbol cfg) := List.eq_replicate_iff.2 ⟨rfl, hcon⟩
  have hv := value_of_replicate_last cfg l.length
  rw [← hl] at hv
  omega

/-- The increment on a buffer `left ++ mid ++ right` with the cursor on the last byte of
`mid`: when `mid` holds symbols, not all of them the wrapping symbol, only `mid` changes,
it still holds symbols and its value grows by one. -/
theorem increment_region (cfg : Alphabet) (left mid right : List Nat)
    (hsym : ∀ a ∈ mid, is_symbol cfg a = true) (hnot : ∃ a ∈ mid, a ≠ last_symbol cfg) :
    ∃ mid1, increment_char_short cfg (left.length + mid.length - 1) (left ++ mid ++ right) =
        some (left ++ mid1 ++ right) ∧
      mid1.length = mid.length ∧ (∀ a ∈ mid1, is_symbol cfg a = true) ∧
      value_of cfg mid1 = value_of cfg mid + 1 := by
  rcases trailing_last_cases cfg mid with ⟨pre, x, n, hmid, hx⟩ | hall
  · refine ⟨pre ++ next_byte cfg x :: List.replicate n (CInitialChar cfg), ?_, ?_, ?_, ?_⟩
    · have h := carry_walk_stop cfg x hx n (left ++ pre) right
      rw [increment_char_short_eq_carry_walk, hmid]
      have hidx : left.length + (pre ++ x :: List.replicate n (last_symbol cfg)).length - 1 =
          (left ++ pre).length + n := by
        simp; omega
      rw [hidx]
      simpa using h
    · rw [hmid]; simp
    · intro a ha
      rw [hmid] at hsym
      simp only [List.mem_append, List.mem_cons, List.mem_replicate] at ha hsym
      rcases ha with ha | rfl | ⟨-, rfl⟩
      · exact hsym a (Or.inl ha)
      · exact is_symbol_next cfg x (hsym x (Or.inr (Or.inl rfl))) hx
      · exact is_symbol_initial cfg
    · have hxs : is_symbol cfg x = true := hsym x (by rw [hmid]; simp)
      have hlast := value_of_replicate_last cfg n
      rw [hmid, value_of_append, value_of_append, value_of_cons, value_of_cons,
        value_of_replicate_initial, digit_of_next cfg x hxs hx]
      simp only [List.length_cons, List.length_replicate]
      have : (digit_of cfg x + 1) * radix cfg ^ n =
          digit_of cfg x * radix cfg ^ n + radix cfg ^ n := by ring
      omega
  · obtain ⟨a, ha, hne⟩ := hnot
    rw [hall] at ha
    exact absurd (List.eq_of_mem_replicate ha) hne

theorem repeat_increment_add (cfg : Alphabet) (c a : Nat) :
    ∀ (b : Nat) (buf : List Nat),
      repeat_increment cfg c (a + b) buf =
        (repeat_increment cfg c a buf).bind (repeat_increment cfg c b) := by
  induction a with
  | zero => intro b buf; simp [repeat_increment]
  | succ a ih =>
    intro b buf
    rw [Nat.add_right_comm]
    simp only [repeat_increment]
    cases increment_char_short cfg c buf with
    | none => rfl
    | some buf1 => exact ih b buf1

/-- As long as the value stays below `radix ^ length`, `k` increments add `k`. -/
theorem repeat_increment_region (cfg : Alphabet) (left right : List Nat) (k : Nat) :
    ∀ mid : List Nat, (∀ a ∈ mid, is_symbol cfg a = true) →
      value_of cfg mid + k < radix cfg ^ mid.length →
      ∃ mid1, repeat_increment cfg (left.length + mid.length - 1) k (left ++ mid ++ right) =
          some (left ++ mid1 ++ right) ∧
        mid1.length = mid.length ∧ (∀ a ∈ mid1, is_symbol cfg a = true) ∧
        value_of cfg mid1 = value_of cfg mid + k := by
  induction k with
  | zero =>
    intro mid hsym _
    exact ⟨mid, rfl, rfl, hsym, rfl⟩
  | succ k ih =>
    intro mid hsym hk
    obtain ⟨mid1, h1, hlen1, hsym1, hval1⟩ :=
      increment_region cfg left mid right hsym (not_all_last_of_value cfg mid (by omega))
    obtain ⟨mid2, h2, hlen2, hsym2, hval2⟩ := ih mid1 hsym1 (by rw [hlen1, hval1]; omega)
    refine ⟨mid2, ?_, by omega, hsym2, by omega⟩
    simp only [repeat_increment, h1]
    rw [← hlen1]
    exact h2

/-! ## Regions of a buffer -/

theorem getElem?_region (buf : List Nat) (p i j : Nat) :
    (region buf p i)[j]? = if j < i + 1 - p then buf[p + j]? else none := by
  unfold region
  by_cases hj : j < i + 1 - p
  · rw [List.getElem?_take_of_lt hj, List.getElem?_drop, if_pos hj]
  · rw [if_neg hj, List.getElem?_take_eq_none (by omega)]

theorem mem_region_iff (buf : List Nat) (p i a : Nat) (hi : i < buf.length) :
    a ∈ region buf p i ↔ ∃ k, p ≤ k ∧ k ≤ i ∧ buf.getD k 0 = a := by
  rw [List.mem_iff_getElem?]
  constructor
  · rintro ⟨j, hj⟩
    rw [getElem?_region] at hj
    split_ifs at hj with h
    refine ⟨p + j, by omega, by omega, ?_⟩
    rw [List.getD_eq_getElem?_getD, hj]
    rfl
  · rintro ⟨k, hpk, hki, hk⟩
    refine ⟨k - p, ?_⟩
    rw [getElem?_region, if_pos (by omega), show p + (k - p) = k by omega]
    rw [List.getD_eq_getElem?_getD, List.getElem?_eq_getElem (by omega)] at hk
    rw [List.getElem?_eq_getElem (by omega)]
    simpa using hk

theorem region_split (buf : List Nat) (p i : Nat) (hp : p ≤ i) (hi : i < buf.length) :
    buf = buf.take p ++ region buf p i ++ buf.drop (i + 1) ∧ (buf.take p).length = p ∧
      (region buf p i).length = i + 1 - p := by
  refine ⟨?_, ?_, ?_⟩
  · unfold region
    have h1 : buf.drop (i + 1) = (buf.drop p).drop (i + 1 - p) := by
      rw [List.drop_drop]
      congr 1
      omega
    rw [h1, List.append_assoc, List.take_append_drop, List.take_append_drop]
  · rw [List.length_take]; omega
  · unfold region
    rw [List.length_take, List.length_drop]; omega

theorem region_append (left mid right : List Nat) (hmid : mid ≠ []) :
    region (left ++ mid ++ right) left.length (left.length + mid.length - 1) = mid := by
  have hlen : 0 < mid.length := List.length_pos.2 hmid
  unfold region
  rw [List.append_assoc, List.drop_left,
    show left.length + mid.length - 1 + 1 - left.length = mid.length by omega, List.take_left]

theorem getElem?_outside_region (left mid mid1 right : List Nat) (h : mid1.length = mid.length)
    (k : Nat) (hk : k < left.length ∨ left.length + mid.length - 1 < k) (hmid : mid ≠ []) :
    (left ++ mid1 ++ right)[k]? = (left ++ mid ++ right)[k]? := by
  have hlen : 0 < mid.length := List.length_pos.2 hmid
  rcases hk with hk | hk
  · rw [List.append_assoc, List.append_assoc, List.getElem?_append_left hk,
      List.getElem?_append_left hk]
  · rw [List.getElem?_append_right (by simp; omega), List.getElem?_append_right (by simp; omega)]
    simp [h]

theorem region_replaced (cfg : Alphabet) (buf : List Nat) (p i : Nat) (hp : p ≤ i)
    (hi : i < buf.length) (mid1 : List Nat) (hlen : mid1.length = (region buf p i).length)
    (hsym1 : ∀ a ∈ mid1, is_symbol cfg a = true) :
    (buf.take p ++ mid1 ++ buf.drop (i + 1)).length = buf.length ∧
      (∀ k, k < p ∨ i < k → (buf.take p ++ mid1 ++ buf.drop (i + 1))[k]? = buf[k]?) ∧
      (∀ k, p ≤ k → k ≤ i →
        is_symbol cfg ((buf.take p ++ mid1 ++ buf.drop (i + 1)).getD k 0) = true) ∧
      region (buf.take p ++ mid1 ++ buf.drop (i + 1)) p i = mid1 := by
  obtain ⟨hbuf, hleft, hmid⟩ := region_split buf p i hp hi
  have hmid_ne : region buf p i ≠ [] := by
    intro h
    rw [h] at hmid
    simp at hmid
    omega
  have hmid1_ne : mid1 ≠ [] := by
    intro h
    rw [h] at hlen
    simp at hlen
    omega
  have hidx : (buf.take p).length + mid1.length - 1 = i := by omega
  have hreg : region (buf.take p ++ mid1 ++ buf.drop (i + 1)) p i = mid1 := by
    have h := region_append (buf.take p) mid1 (buf.drop (i + 1)) hmid1_ne
    rwa [hidx, hleft] at h
  have hlen1 : (buf.take p ++ mid1 ++ buf.drop (i + 1)).length = buf.length := by
    simp only [List.length_append, List.length_take, List.length_drop]
    omega
  refine ⟨hlen1, ?_, ?_, hreg⟩
  · intro k hk
    have h := getElem?_outside_region (buf.take p) (region buf p i) mid1 (buf.drop (i + 1)) hlen k
      (by omega) hmid_ne
    rwa [← hbuf] at h
  · intro k hpk hki
    have hm := (mem_region_iff (buf.take p ++ mid1 ++ buf.drop (i + 1)) p i _ (by omega)).2
      ⟨k, hpk, hki, rfl⟩
    rw [hreg] at hm
    exact hsym1 _ hm

/-- The increment with the cursor at index `i`, read on the bytes `p..i`. -/
theorem increment_at_index (cfg : Alphabet) (buf : List Nat) (p i : Nat) (hp : p ≤ i)
    (hi : i < buf.length) (hsym : ∀ k, p ≤ k → k ≤ i → is_symbol cfg (buf.getD k 0) = true)
    (hnot : ∃ k, p ≤ k ∧ k ≤ i ∧ buf.getD k 0 ≠ last_symbol cfg) :
    ∃ buf1, increment_char_short cfg i buf = some buf1 ∧ buf1.length = buf.length ∧
      (∀ k, k < p ∨ i < k → buf1[k]? = buf[k]?) ∧
      (∀ k, p ≤ k → k ≤ i → is_symbol cfg (buf1.getD k 0) = true) ∧
      value_of cfg (region buf1 p i) = value_of cfg (region buf p i) + 1 := by
  obtain ⟨hbuf, hleft, hmid⟩ := region_split buf p i hp hi
  have hsym0 : ∀ a ∈ region buf p i, is_symbol cfg a = true := by
    intro a ha
    obtain ⟨k, hpk, hki, rfl⟩ := (mem_region_iff buf p i a hi).1 ha
    exact hsym k hpk hki
  have hnot0 : ∃ a ∈ region buf p i, a ≠ last_symbol cfg := by
    obtain ⟨k, hpk, hki, hk⟩ := hnot
    exact ⟨_, (mem_region_iff buf p i _ hi).2 ⟨k, hpk, hki, rfl⟩, hk⟩
  obtain ⟨mid1, hinc, hlen1, hsym1, hval1⟩ :=
    increment_region cfg (buf.take p) (region buf p i) (buf.drop (i + 1)) hsym0 hnot0
  rw [← hbuf, show (buf.take p).length + (region buf p i).length - 1 = i by omega] at hinc
  obtain ⟨h1, h2, h3, h4⟩ := region_replaced cfg buf p i hp hi mid1 hlen1 hsym1
  exact ⟨_, hinc, h1, h2, h3, by rw [h4, hval1]⟩

/-- The repeated increment with the cursor at index `i`, read on the bytes `p..i`. -/
theorem repeat_increment_at_index (cfg : Alphabet) (buf : List Nat) (p i k : Nat) (hp : p ≤ i)
    (hi : i < buf.length) (hsym : ∀ j, p ≤ j → j ≤ i → is_symbol cfg (buf.getD j 0) = true)
    (hk : value_of cfg (region buf p i) + k < radix cfg ^ (i + 1 - p)) :
    ∃ buf1, repeat_increment cfg i k buf = some buf1 ∧ buf1.length = buf.length ∧
      (∀ j, j < p ∨ i < j → buf1[j]? = buf[j]?) ∧
      (∀ j, p ≤ j → j ≤ i → is_symbol cfg (buf1.getD j 0) = true) ∧
      value_of cfg (region buf1 p i) = value_of cfg (region buf p i) + k := by
  obtain ⟨hbuf, hleft, hmid⟩ := region_split buf p i hp hi
  have hsym0 : ∀ a ∈ region buf p i, is_symbol cfg a = true := by
    intro a ha
    obtain ⟨j, hpj, hji, rfl⟩ := (mem_region_iff buf p i a hi).1 ha
    exact hsym j hpj hji
  obtain ⟨mid1, hinc, hlen1, hsym1, hval1⟩ :=
    repeat_increment_region cfg (buf.take p) (buf.drop (i + 1)) k (region buf p i) hsym0
      (by rw [hmid]; exact hk)
  rw [← hbuf, show (buf.take p).length + (region buf p i).length - 1 = i by omega] at hinc
  obtain ⟨h1, h2, h3, h4⟩ := region_replaced cfg buf p i hp hi mid1 hlen1 hsym1
  exact ⟨_, hinc, h1, h2, h3, by rw [h4, hval1]⟩

/-! ## The alphabet counter: the claims -/

/-- C5: for each of the six alphabets, with bytes `p..i` symbols that are not all the last
symbol, one increment at `i` keeps the length and the bytes outside `p..i`, leaves symbols
in `p..i` and adds one to their base-`radix` value; `k` increments add `k` while the value
stays below `radix ^ (i + 1 - p)`, and `a + b` increments are `a` increments followed by `b`.
The digits count the successor chain from `CInitialChar` (digit 0) to the last symbol
(digit `radix - 1`), the radices being 10, 26, 26, 52, 62 and 77. -/
theorem increment_char_short_adds_one (cfg : Alphabet) (buf : List Nat) (p i : Nat) (hp : p ≤ i)
    (hi : i < buf.length) (hsym : ∀ k, p ≤ k → k ≤ i → is_symbol cfg (buf.getD k 0) = true)
    (hnot : ∃ k, p ≤ k ∧ k ≤ i ∧ buf.getD k 0 ≠ last_symbol cfg) :
    (List.map radix [.digits_only, .lowercase_only, .uppercase_only, .mixed_case_only,
        .mixed_case_with_digits, .mixcase_digits_punct] = [10, 26, 26, 52, 62, 77] ∧
      digit_of cfg (CInitialChar cfg) = 0 ∧ digit_of cfg (last_symbol cfg) + 1 = radix cfg) ∧
    (∃ buf1, increment_char_short cfg i buf = some buf1 ∧ buf1.length = buf.length ∧
      (∀ k, k < p ∨ i < k → buf1[k]? = buf[k]?) ∧
      (∀ k, p ≤ k → k ≤ i → is_symbol cfg (buf1.getD k 0) = true) ∧
      value_of cfg (region buf1 p i) = value_of cfg (region buf p i) + 1) ∧
    (∀ k, value_of cfg (region buf p i) + k < radix cfg ^ (i + 1 - p) →
      ∃ bufk, repeat_increment cfg i k buf = some bufk ∧ bufk.length = buf.length ∧
        (∀ j, j < p ∨ i < j → bufk[j]? = buf[j]?) ∧
        (∀ j, p ≤ j → j ≤ i → is_symbol cfg (bufk.getD j 0) = true) ∧
        value_of cfg (region bufk p i) = value_of cfg (region buf p i) + k) ∧
    (∀ a b, repeat_increment cfg i (a + b) buf =
      (repeat_increment cfg i a buf).bind (repeat_increment cfg i b)) := by
  refine ⟨⟨rfl, digit_of_initial cfg, ?_⟩, increment_at_index cfg buf p i hp hi hsym hnot,
    fun k hk => repeat_increment_at_index cfg buf p i k hp hi hsym hk,
    fun a b => repeat_increment_add cfg i a b buf⟩
  rw [digit_of_last]
  have := radix_pos cfg
  omega

theorem increment_char_short_adds_one_witness :
    (0 ≤ 1) ∧ (1 < [120, 122].length) ∧
    (∀ k, 0 ≤ k → k ≤ 1 → is_symbol .lowercase_only ([120, 122].getD k 0) = true) ∧
    (∃ k, 0 ≤ k ∧ k ≤ 1 ∧ [120, 122].getD k 0 ≠ last_symbol .lowercase_only) ∧
    ((List.map radix [.digits_only, .lowercase_only, .uppercase_only, .mixed_case_only,
        .mixed_case_with_digits, .mixcase_digits_punct] = [10, 26, 26, 52, 62, 77] ∧
      digit_of .lowercase_only (CInitialChar .lowercase_only) = 0 ∧
      digit_of .lowercase_only (last_symbol .lowercase_only) + 1 = radix .lowercase_only) ∧
    (∃ buf1, increment_char_short .lowercase_only 1 [120, 122] = some buf1 ∧
      buf1.length = [120, 122].length ∧
      (∀ k, k < 0 ∨ 1 < k → buf1[k]? = [120, 122][k]?) ∧
      (∀ k, 0 ≤ k → k ≤ 1 → is_symbol .lowercase_only (buf1.getD k 0) = true) ∧
      value_of .lowercase_only (region buf1 0 1) =
        value_of .lowercase_only (region [120, 122] 0 1) + 1) ∧
    (∀ k, value_of .lowercase_only (region [120, 122] 0 1) + k <
        radix .lowercase_only ^ (1 + 1 - 0) →
      ∃ bufk, repeat_increment .lowercase_only 1 k [120, 122] = some bufk ∧
        bufk.length = [120, 122].length ∧
        (∀ j, j < 0 ∨ 1 < j → bufk[j]? = [120, 122][j]?) ∧
        (∀ j, 0 ≤ j → j ≤ 1 → is_symbol .lowercase_only (bufk.getD j 0) = true) ∧
        value_of .lowercase_only (region bufk 0 1) =
          value_of .lowercase_only (region [120, 122] 0 1) + k) ∧
    (∀ a b, repeat_increment .lowercase_only 1 (a + b) [120, 122] =
      (repeat_increment .lowercase_only 1 a [120, 122]).bind
        (repeat_increment .lowercase_only 1 b))) :=
  ⟨by decide, by decide, by decide, ⟨0, by decide⟩,
    increment_char_short_adds_one .lowercase_only [120, 122] 0 1 (by decide) (by decide)
      (by decide) ⟨0, by decide⟩⟩

/-- C6, as the claim states it, fails: with every suffix byte `'z'` the increment of
`MixC!0zzzzzzzzzz` returns a buffer, with no overflow reported, whose first six bytes are
`MixC!1`. -/
theorem literal_overwritten_on_carry :
    increment_char_short .mixcase_digits_punct (CMessageLen - 1)
        (message_literal .mixcase_digits_punct ++ List.replicate 10 122) =
      some ("MixC!1".toList.map Char.toNat ++ List.replicate 10 33) ∧
    ¬ ∃ suffix1, increment_char_short .mixcase_digits_punct (CMessageLen - 1)
        (message_literal .mixcase_digits_punct ++ List.replicate 10 122) =
      some (message_literal .mixcase_digits_punct ++ suffix1) := by
  constructor
  · decide
  · rintro ⟨suffix1, h⟩
    have h1 : increment_char_short .mixcase_digits_punct (CMessageLen - 1)
        (message_literal .mixcase_digits_punct ++ List.replicate 10 122) =
        some ("MixC!1".toList.map Char.toNat ++ List.replicate 10 33) := by decide
    rw [h1] at h
    have h2 := congrArg (fun o => o.map (fun l => l.getD 5 0)) h
    revert h2
    simp [message_literal]

/-- C6, amended: an increment at the last byte of `pre ++ suffix` leaves `pre` unchanged
when some suffix byte is not the last symbol; when every suffix byte is the last symbol no
overflow is reported, the suffix is reset to `CInitialChar` and the increment goes on at the
last byte of `pre` (an empty `pre` is left through its lower end). -/
theorem increment_literal_frame (cfg : Alphabet) (pre suffix : List Nat) (hne : suffix ≠ []) :
    ((∃ a ∈ suffix, a ≠ last_symbol cfg) →
      ∃ suffix1, increment_char_short cfg (pre.length + suffix.length - 1) (pre ++ suffix) =
          some (pre ++ suffix1) ∧ suffix1.length = suffix.length) ∧
    ((∀ a ∈ suffix, a = last_symbol cfg) →
      increment_char_short cfg (pre.length + suffix.length - 1) (pre ++ suffix) =
        if pre = [] then none
        else (increment_char_short cfg (pre.length - 1) pre).map
          (fun l => l ++ List.replicate suffix.length (CInitialChar cfg))) := by
  constructor
  · intro hnot
    rcases trailing_last_cases cfg suffix with ⟨s, x, n, hs, hx⟩ | hall
    · refine ⟨s ++ next_byte cfg x :: List.replicate n (CInitialChar cfg), ?_, by simp [hs]⟩
      have h := carry_walk_stop cfg x hx n (pre ++ s) []
      rw [increment_char_short_eq_carry_walk, hs]
      have hidx : pre.length + (s ++ x :: List.replicate n (last_symbol cfg)).length - 1 =
          (pre ++ s).length + n := by
        simp; omega
      rw [hidx]
      simpa using h
    · obtain ⟨a, ha, hane⟩ := hnot
      rw [hall] at ha
      exact absurd (List.eq_of_mem_replicate ha) hane
  · intro hall
    obtain ⟨n, hn⟩ : ∃ n, suffix.length = n + 1 :=
      ⟨suffix.length - 1, by have := List.length_pos.2 hne; omega⟩
    have hs : suffix = last_symbol cfg :: List.replicate n (last_symbol cfg) := by
      rw [← List.replicate_succ, ← hn]
      exact List.eq_replicate_iff.2 ⟨rfl, hall⟩
    have h := carry_walk_through cfg n pre []
    simp only [List.append_nil] at h
    rw [increment_char_short_eq_carry_walk, hn,
      show pre.length + (n + 1) - 1 = pre.length + n by omega, hs, h]
    by_cases hpre : pre = []
    · subst hpre
      rw [if_pos rfl]
      exact carry_walk_zero_last cfg _ (by simp)
    · rw [if_neg hpre]
      obtain ⟨m, hm⟩ : ∃ m, pre.length = m + 1 :=
        ⟨pre.length - 1, by have := List.length_pos.2 hpre; omega⟩
      have hget : (pre ++ last_symbol cfg :: List.replicate n (CInitialChar cfg))[m + 1]? =
          some (last_symbol cfg) := by
        rw [← hm, List.getElem?_append_right (Nat.le_refl _)]
        simp
      have hset : (pre ++ last_symbol cfg :: List.replicate n (CInitialChar cfg)).set (m + 1)
          (CInitialChar cfg) = pre ++ List.replicate (n + 1) (CInitialChar cfg) := by
        rw [← hm, List.set_append_right _ _ (Nat.le_refl _)]
        simp [List.replicate_succ]
      rw [hm, carry_walk_of_last cfg _ _ hget, hset, carry_walk_append cfg m pre _ (by omega),
        increment_char_short_eq_carry_walk]
      simp

theorem increment_literal_frame_witness :
    (List.replicate 10 122 ≠ []) ∧
    (((∃ a ∈ List.replicate 10 122, a ≠ last_symbol .mixcase_digits_punct) →
      ∃ suffix1, increment_char_short .mixcase_digits_punct
          ((message_literal .mixcase_digits_punct).length + (List.replicate 10 122).length - 1)
          (message_literal .mixcase_digits_punct ++ List.replicate 10 122) =
          some (message_literal .mixcase_digits_punct ++ suffix1) ∧
        suffix1.length = (List.replicate 10 122).length) ∧
    ((∀ a ∈ List.replicate 10 122, a = last_symbol .mixcase_digits_punct) →
      increment_char_short .mixcase_digits_punct
          ((message_literal .mixcase_digits_punct).length + (List.replicate 10 122).length - 1)
          (message_literal .mixcase_digits_punct ++ List.replicate 10 122) =
        if message_literal .mixcase_digits_punct = [] then none
        else (increment_char_short .mixcase_digits_punct
            ((message_literal .mixcase_digits_punct).length - 1)
            (message_literal .mixcase_digits_punct)).map
          (fun l => l ++ List.replicate (List.replicate 10 122).length
            (CInitialChar .mixcase_digits_punct)))) :=
  ⟨by decide, increment_literal_frame .mixcase_digits_punct (message_literal .mixcase_digits_punct)
    (List.replicate 10 122) (by decide)⟩

/-! ## The padding loop -/

theorem getElem?_append_cons (l1 l2 : List Nat) (a : Nat) :
    (l1 ++ a :: l2)[l1.length]? = some a := by
  rw [List.getElem?_append_right (Nat.le_refl _)]
  simp

theorem symbol_of_zero (cfg : Alphabet) : symbol_of cfg 0 = CInitialChar cfg := by
  cases cfg <;> rfl

theorem increment_pad_byte (cfg : Alphabet) (c : Nat) (hc : is_symbol cfg c = true) :
    ∃ buff, increment_char_short cfg 1 [CInitialChar cfg, c] = some buff ∧
      buff.getD 1 0 = symbol_of cfg ((digit_of cfg c + 1) % radix cfg) := by
  rw [increment_char_short_eq_carry_walk]
  by_cases hl : c = last_symbol cfg
  · subst hl
    refine ⟨[next_byte cfg (CInitialChar cfg), CInitialChar cfg], ?_, ?_⟩
    · rw [carry_walk_of_last cfg 0 _ (by simp)]
      rw [carry_walk_of_ne cfg 0 _ (CInitialChar cfg) (by simp) (initial_ne_last cfg)]
      simp
    · have hr := radix_pos cfg
      rw [digit_of_last, show radix cfg - 1 + 1 = radix cfg by omega, Nat.mod_self,
        symbol_of_zero]
      simp
  · refine ⟨[CInitialChar cfg, next_byte cfg c], ?_, ?_⟩
    · rw [carry_walk_of_ne cfg 1 _ c (by simp) hl]
      simp
    · have h1 := digit_of_next cfg c hc hl
      have h2 := digit_of_lt cfg _ (is_symbol_next cfg c hc hl)
      rw [Nat.mod_eq_of_lt (by omega), ← h1, symbol_of_digit_of cfg _ (is_symbol_next cfg c hc hl)]
      simp

theorem padding_loop_eq (cfg : Alphabet) (n : Nat) :
    ∀ (c : Nat) (message : List Nat), is_symbol cfg c = true →
      padding_loop cfg n c message =
        .ok (message ++ (List.range n).map fun k =>
          symbol_of cfg ((digit_of cfg c + k) % radix cfg)) := by
  induction n with
  | zero => intro c message _; simp [padding_loop]
  | succ n ih =>
    intro c message hc
    obtain ⟨buff, hb, hget⟩ := increment_pad_byte cfg c hc
    have hlt : (digit_of cfg c + 1) % radix cfg < radix cfg := Nat.mod_lt _ (radix_pos cfg)
    simp only [padding_loop, hb]
    rw [hget, ih _ _ (is_symbol_symbol_of cfg _ hlt), digit_of_symbol_of cfg _ hlt,
      List.range_succ_eq_map, List.map_cons, List.map_map]
    have h0 : symbol_of cfg ((digit_of cfg c + 0) % radix cfg) = c := by
      rw [Nat.add_zero, Nat.mod_eq_of_lt (digit_of_lt cfg c hc), symbol_of_digit_of cfg c hc]
    rw [h0, List.append_assoc]
    congr 2
    simp only [List.singleton_append, List.cons.injEq, true_and]
    apply List.map_congr_left
    intro k _
    simp only [Function.comp, Nat.succ_eq_add_one]
    congr 1
    rw [Nat.mod_add_mod]
    congr 1
    omega

theorem padding_loop_initial (cfg : Alphabet) (n : Nat) (message : List Nat) :
    padding_loop cfg n (CInitialChar cfg) message = .ok (message ++ pad_symbols cfg n) := by
  rw [padding_loop_eq cfg n _ _ (is_symbol_initial cfg), digit_of_initial]
  simp [pad_symbols]

theorem is_symbol_pad_symbols (cfg : Alphabet) (n : Nat) :
    ∀ a ∈ pad_symbols cfg n, is_symbol cfg a = true := by
  intro a ha
  simp only [pad_symbols, List.mem_map, List.mem_range] at ha
  obtain ⟨k, -, rfl⟩ := ha
  exact is_symbol_symbol_of cfg _ (Nat.mod_lt _ (radix_pos cfg))

theorem length_pad_symbols (cfg : Alphabet) (n : Nat) : (pad_symbols cfg n).length = n := by
  simp [pad_symbols]

theorem length_message_literal_le (cfg : Alphabet) : (message_literal cfg).length ≤ 11 := by
  cases cfg <;> decide

theorem is_symbol_message_literal (cfg : Alphabet) :
    ∀ a ∈ message_literal cfg, is_symbol cfg a = true := by
  cases cfg <;> decide

/-! ## The stepover strategy -/

theorem initial_message_stepover (cfg : Alphabet) (r : Nat) :
    initial_message cfg true r =
      .ok (message_literal cfg ++ pad_symbols cfg (CMessageLen - (message_literal cfg).length)) := by
  have hlen := length_message_literal_le cfg
  simp only [initial_message, if_true, padding_loop_initial]
  rw [if_neg]
  simp only [List.length_append, length_pad_symbols, CMessageLen]
  omega

theorem advance_passes_stepover (cfg : Alphabet) (n j : Nat) :
    ∀ buf : List Nat, advance_passes cfg true n j buf =
      repeat_increment cfg (CMessageLen - 1) (j * n) buf := by
  induction j with
  | zero => intro buf; simp [advance_passes, repeat_increment]
  | succ j ih =>
    intro buf
    rw [Nat.succ_mul, Nat.add_comm (j * n) n, repeat_increment_add]
    simp only [advance_passes, loop_advance, if_true]
    cases repeat_increment cfg (CMessageLen - 1) n buf with
    | none => rfl
    | some buf1 => exact ih buf1

theorem advance_passes_quick (cfg : Alphabet) (n j : Nat) :
    ∀ buf : List Nat, advance_passes cfg false n j buf =
      repeat_increment cfg (CMessageLen - 1) j buf := by
  induction j with
  | zero => intro buf; rfl
  | succ j ih =>
    intro buf
    simp only [advance_passes, loop_advance, repeat_increment, Bool.false_eq_true, if_false]
    cases increment_char_short cfg (CMessageLen - 1) buf with
    | none => rfl
    | some buf1 => exact ih buf1

/-- On a whole buffer of symbols, `k` increments at the last byte add `k` to its value. -/
theorem repeat_increment_whole (cfg : Alphabet) (buf : List Nat) (k : Nat)
    (hsym : ∀ a ∈ buf, is_symbol cfg a = true)
    (hk : value_of cfg buf + k < radix cfg ^ buf.length) :
    ∃ buf1, repeat_increment cfg (buf.length - 1) k buf = some buf1 ∧
      buf1.length = buf.length ∧ (∀ a ∈ buf1, is_symbol cfg a = true) ∧
      value_of cfg buf1 = value_of cfg buf + k := by
  have h := repeat_increment_region cfg [] [] k buf hsym hk
  simpa using h

/-- C8: in stepover mode the message before the rank advance is the same for every rank
(the literal followed by padding, 16 bytes), and the buffer worker `r` hashes in pass `j`
is that message advanced by `r + j * n` increments at its last byte; the advance succeeds
as long as the value of the buffer stays below `radix ^ 16`. -/
theorem stepover_hashed_buf (cfg : Alphabet) (r n j : Nat) :
    ∃ base, (∀ r1, initial_message cfg true r1 = .ok base) ∧
      base = message_literal cfg ++
        pad_symbols cfg (CMessageLen - (message_literal cfg).length) ∧
      base.length = CMessageLen ∧
      hashed_buf cfg true r n j =
        or_out_of_bounds (repeat_increment cfg (CMessageLen - 1) (r + j * n) base) ∧
      (value_of cfg base + (r + j * n) < radix cfg ^ CMessageLen →
        ∃ buf, hashed_buf cfg true r n j = .ok buf ∧ buf.length = CMessageLen ∧
          value_of cfg buf = value_of cfg base + (r + j * n)) := by
  have hlit := length_message_literal_le cfg
  have hlen : (message_literal cfg ++
      pad_symbols cfg (CMessageLen - (message_literal cfg).length)).length = CMessageLen := by
    simp only [List.length_append, length_pad_symbols, CMessageLen]
    omega
  have hsym : ∀ a ∈ message_literal cfg ++
      pad_symbols cfg (CMessageLen - (message_literal cfg).length), is_symbol cfg a = true := by
    intro a ha
    rcases List.mem_append.1 ha with h | h
    · exact is_symbol_message_literal cfg a h
    · exact is_symbol_pad_symbols cfg _ a h
  have hhash : hashed_buf cfg true r n j =
      or_out_of_bounds (repeat_increment cfg (CMessageLen - 1) (r + j * n)
        (message_literal cfg ++
          pad_symbols cfg (CMessageLen - (message_literal cfg).length))) := by
    simp only [hashed_buf, initial_buf, initial_message_stepover, hlen, Nat.sub_self,
      List.replicate_zero, List.append_nil, if_true]
    rw [repeat_increment_add]
    cases repeat_increment cfg (CMessageLen - 1) r _ with
    | none => rfl
    | some buf1 =>
      simp only [or_out_of_bounds, Option.some_bind]
      rw [advance_passes_stepover]
  refine ⟨_, fun r1 => initial_message_stepover cfg r1, rfl, hlen, hhash, ?_⟩
  intro hv
  obtain ⟨buf1, h1, h2, -, h4⟩ := repeat_increment_whole cfg _ (r + j * n) hsym
    (by rw [hlen]; exact hv)
  rw [hlen] at h1 h2
  exact ⟨buf1, by rw [hhash, h1]; rfl, h2, h4⟩

theorem all_last_of_value (cfg : Alphabet) (l : List Nat)
    (hsym : ∀ a ∈ l, is_symbol cfg a = true) (h : value_of cfg l + 1 = radix cfg ^ l.length) :
    l = List.replicate l.length (last_symbol cfg) := by
  by_contra hcon
  have hnot : ∃ a ∈ l, a ≠ last_symbol cfg := by
    by_contra hall
    push_neg at hall
    exact hcon (List.eq_replicate_iff.2 ⟨rfl, hall⟩)
  obtain ⟨mid1, -, hlen1, hsym1, hval1⟩ := increment_region cfg [] l [] hsym hnot
  have hlt := value_of_lt cfg mid1 hsym1
  rw [hlen1, hval1] at hlt
  omega

/-- One increment more than `increments_before_overflow` leaves the buffer at its lower end. -/
theorem repeat_increment_overflow (cfg : Alphabet) (buf : List Nat) (hne : buf ≠ [])
    (hsym : ∀ a ∈ buf, is_symbol cfg a = true) :
    repeat_increment cfg (buf.length - 1) (increments_before_overflow cfg buf + 1) buf = none := by
  have hlt := value_of_lt cfg buf hsym
  have hpos : 0 < buf.length := List.length_pos.2 hne
  obtain ⟨buf1, h1, hlen1, hsym1, hval1⟩ := repeat_increment_whole cfg buf
    (increments_before_overflow cfg buf) hsym (by unfold increments_before_overflow; omega)
  have hall := all_last_of_value cfg buf1 hsym1
    (by rw [hlen1, hval1]; unfold increments_before_overflow; omega)
  rw [repeat_increment_add, h1]
  simp only [Option.some_bind, repeat_increment]
  have hw : increment_char_short cfg (buf.length - 1) buf1 = none := by
    rw [increment_char_short_eq_carry_walk, hall, hlen1]
    have h := carry_walk_overflow cfg (buf.length - 1) []
    rwa [show buf.length - 1 + 1 = buf.length by omega, List.append_nil] at h
  rw [hw]

/-- C4: for `n ≥ 1` workers and a 16-byte base of symbols, with `m` at most the number of
increments left before overflow, the candidates `base + (r + j * n)` over `r < n` and
`r + j * n < m` all exist, differ for different `(r, j)`, and are exactly the candidates
`base + t` for `t < m`; the increment after the last one counted leaves the buffer. -/
theorem stepover_partition (cfg : Alphabet) (n m : Nat) (base : List Nat) (hn : 1 ≤ n)
    (hlen : base.length = CMessageLen) (hsym : ∀ a ∈ base, is_symbol cfg a = true)
    (hm : m ≤ increments_before_overflow cfg base) :
    (∀ r j, r < n → r + j * n < m →
      ∃ buf, repeat_increment cfg (CMessageLen - 1) (r + j * n) base = some buf) ∧
    (∀ r1 j1 r2 j2, r1 < n → r2 < n → r1 + j1 * n < m → r2 + j2 * n < m →
      (r1, j1) ≠ (r2, j2) →
      repeat_increment cfg (CMessageLen - 1) (r1 + j1 * n) base ≠
        repeat_increment cfg (CMessageLen - 1) (r2 + j2 * n) base) ∧
    (∀ c, (∃ r j, r < n ∧ r + j * n < m ∧
        repeat_increment cfg (CMessageLen - 1) (r + j * n) base = some c) ↔
      (∃ t, t < m ∧ repeat_increment cfg (CMessageLen - 1) t base = some c)) ∧
    repeat_increment cfg (CMessageLen - 1) (increments_before_overflow cfg base + 1) base =
      none := by
  have hval : ∀ t, t < m → ∃ buf, repeat_increment cfg (CMessageLen - 1) t base = some buf ∧
      value_of cfg buf = value_of cfg base + t := by
    intro t ht
    have hlt := value_of_lt cfg base hsym
    have hk : value_of cfg base + t < radix cfg ^ base.length := by
      unfold increments_before_overflow at hm
      omega
    obtain ⟨buf1, h1, -, -, h4⟩ := repeat_increment_whole cfg base t hsym hk
    rw [hlen] at h1
    exact ⟨buf1, h1, h4⟩
  refine ⟨?_, ?_, ?_, ?_⟩
  rotate_left 3
  · have h := repeat_increment_overflow cfg base
      (by intro h; rw [h] at hlen; exact absurd hlen (by decide)) hsym
    rwa [hlen] at h
  · intro r j _ ht
    obtain ⟨buf, hb, -⟩ := hval _ ht
    exact ⟨buf, hb⟩
  · intro r1 j1 r2 j2 hr1 hr2 ht1 ht2 hne heq
    obtain ⟨b1, hb1, hv1⟩ := hval _ ht1
    obtain ⟨b2, hb2, hv2⟩ := hval _ ht2
    rw [hb1, hb2] at heq
    have hb : b1 = b2 := Option.some.inj heq
    rw [hb] at hv1
    have ht : r1 + j1 * n = r2 + j2 * n := by omega
    have hmod : r1 = r2 := by
      have h := congrArg (fun x => x % n) ht
      simpa [Nat.add_mul_mod_self_right, Nat.mod_eq_of_lt hr1, Nat.mod_eq_of_lt hr2] using h
    have hdiv : j1 = j2 := by
      subst hmod
      have h : j1 * n = j2 * n := by omega
      exact Nat.eq_of_mul_eq_mul_right (by omega) h
    exact hne (by rw [hmod, hdiv])
  · intro c
    constructor
    · rintro ⟨r, j, -, ht, hc⟩
      exact ⟨r + j * n, ht, hc⟩
    · rintro ⟨t, ht, hc⟩
      have hdm : t % n + t / n * n = t := Nat.mod_add_div' t n
      exact ⟨t % n, t / n, Nat.mod_lt _ (by omega), by omega, by rw [hdm]; exact hc⟩

theorem stepover_partition_witness :
    (1 ≤ 3) ∧
    ((message_literal .mixcase_digits_punct ++ pad_symbols .mixcase_digits_punct 10).length =
      CMessageLen) ∧
    (∀ a ∈ message_literal .mixcase_digits_punct ++ pad_symbols .mixcase_digits_punct 10,
      is_symbol .mixcase_digits_punct a = true) ∧
    (5 ≤ increments_before_overflow .mixcase_digits_punct
      (message_literal .mixcase_digits_punct ++ pad_symbols .mixcase_digits_punct 10)) ∧
    ((∀ r j, r < 3 → r + j * 3 < 5 →
      ∃ buf, repeat_increment .mixcase_digits_punct (CMessageLen - 1) (r + j * 3)
        (message_literal .mixcase_digits_punct ++ pad_symbols .mixcase_digits_punct 10) =
          some buf) ∧
    (∀ r1 j1 r2 j2, r1 < 3 → r2 < 3 → r1 + j1 * 3 < 5 → r2 + j2 * 3 < 5 →
      (r1, j1) ≠ (r2, j2) →
      repeat_increment .mixcase_digits_punct (CMessageLen - 1) (r1 + j1 * 3)
          (message_literal .mixcase_digits_punct ++ pad_symbols .mixcase_digits_punct 10) ≠
        repeat_increment .mixcase_digits_punct (CMessageLen - 1) (r2 + j2 * 3)
          (message_literal .mixcase_digits_punct ++ pad_symbols .mixcase_digits_punct 10)) ∧
    (∀ c, (∃ r j, r < 3 ∧ r + j * 3 < 5 ∧
        repeat_increment .mixcase_digits_punct (CMessageLen - 1) (r + j * 3)
          (message_literal .mixcase_digits_punct ++ pad_symbols .mixcase_digits_punct 10) =
            some c) ↔
      (∃ t, t < 5 ∧ repeat_increment .mixcase_digits_punct (CMessageLen - 1) t
        (message_literal .mixcase_digits_punct ++ pad_symbols .mixcase_digits_punct 10) =
          some c)) ∧
    repeat_increment .mixcase_digits_punct (CMessageLen - 1)
      (increments_before_overflow .mixcase_digits_punct
        (message_literal .mixcase_digits_punct ++ pad_symbols .mixcase_digits_punct 10) + 1)
      (message_literal .mixcase_digits_punct ++ pad_symbols .mixcase_digits_punct 10) = none) :=
  ⟨by decide, by decide, by decide, by decide,
    stepover_partition .mixcase_digits_punct 3 5
      (message_literal .mixcase_digits_punct ++ pad_symbols .mixcase_digits_punct 10)
      (by decide) (by decide) (by decide) (by decide)⟩

/-! ## The rank suffix of the quick sequential strategy -/

theorem leading_symbols_initial (cfg : Alphabet) (a0 a1 : Nat) (rest : List Nat)
    (hsym : ∀ a ∈ a0 :: a1 :: rest, is_symbol cfg a = true)
    (hv : value_of cfg (a0 :: a1 :: rest) < radix cfg ^ rest.length) :
    a0 = CInitialChar cfg ∧ a1 = CInitialChar cfg := by
  have hpos : 0 < radix cfg ^ rest.length := pow_pos (radix_pos cfg) _
  rw [value_of_cons, value_of_cons, List.length_cons, pow_succ] at hv
  have h0 : digit_of cfg a0 = 0 := by
    by_contra h
    have h1 : radix cfg ^ rest.length * radix cfg ≤
        digit_of cfg a0 * (radix cfg ^ rest.length * radix cfg) :=
      Nat.le_mul_of_pos_left _ (Nat.pos_of_ne_zero h)
    have h2 : radix cfg ^ rest.length ≤ radix cfg ^ rest.length * radix cfg :=
      Nat.le_mul_of_pos_right _ (radix_pos cfg)
    omega
  have h1 : digit_of cfg a1 = 0 := by
    by_contra h
    have h1 : radix cfg ^ rest.length ≤ digit_of cfg a1 * radix cfg ^ rest.length :=
      Nat.le_mul_of_pos_left _ (Nat.pos_of_ne_zero h)
    omega
  exact ⟨digit_of_eq_zero cfg a0 (hsym a0 (by simp)) h0,
    digit_of_eq_zero cfg a1 (hsym a1 (by simp)) h1⟩

theorem length_eq_add_two (l : List Nat) (n : Nat) (h : l.length = n + 2) :
    ∃ a0 a1 rest, l = a0 :: a1 :: rest ∧ rest.length = n := by
  match l, h with
  | a0 :: a1 :: rest, h => exact ⟨a0, a1, rest, rfl, by simpa using h⟩

/-- The loop over the 100-byte counter: below `radix ^ 98` passes it never reports the
overflow and leaves the rank as the value of the counter. -/
theorem rank_suffix_loop_value (cfg : Alphabet) (n : Nat) :
    ∀ suffix : List Nat, suffix.length = CSuffixLength →
      (∀ a ∈ suffix, is_symbol cfg a = true) →
      value_of cfg suffix + n < radix cfg ^ 98 →
      ∃ s1, rank_suffix_loop cfg n suffix = .ok s1 ∧ s1.length = CSuffixLength ∧
        (∀ a ∈ s1, is_symbol cfg a = true) ∧ value_of cfg s1 = value_of cfg suffix + n := by
  induction n with
  | zero =>
    intro suffix hlen hsym _
    exact ⟨suffix, rfl, hlen, hsym, rfl⟩
  | succ n ih =>
    intro suffix hlen hsym hv
    have hpow : radix cfg ^ 98 ≤ radix cfg ^ suffix.length := by
      rw [hlen]
      exact Nat.pow_le_pow_right (radix_pos cfg) (by decide)
    obtain ⟨mid1, hinc, hlen1, hsym1, hval1⟩ := increment_region cfg [] suffix [] hsym
      (not_all_last_of_value cfg suffix (by omega))
    simp only [List.length_nil, Nat.zero_add, List.nil_append, List.append_nil, hlen] at hinc
    obtain ⟨a0, a1, rest, hrest, hrlen⟩ := length_eq_add_two mid1 98 (by rw [hlen1, hlen]; rfl)
    have hlead := leading_symbols_initial cfg a0 a1 rest (by rw [← hrest]; exact hsym1)
      (by rw [← hrest, hval1, hrlen]; omega)
    obtain ⟨s2, h2, hlen2, hsym2, hval2⟩ := ih mid1 (by rw [hlen1, hlen]) hsym1
      (by rw [hval1]; omega)
    refine ⟨s2, ?_, hlen2, hsym2, by omega⟩
    simp only [rank_suffix_loop, hinc]
    rw [if_neg]
    · exact h2
    · rw [hrest]
      simp [hlead.2]

theorem scan_suffix_found (cfg : Alphabet) (suffix : List Nat) (p len : Nat)
    (h : suffix[p]? = some (CInitialChar cfg)) :
    scan_suffix cfg suffix p len = some (p, len) := by
  cases p <;> simp [scan_suffix, h]

theorem scan_suffix_step (cfg : Alphabet) (suffix : List Nat) (p len a : Nat)
    (h : suffix[p + 1]? = some a) (ha : a ≠ CInitialChar cfg) :
    scan_suffix cfg suffix (p + 1) len = scan_suffix cfg suffix p (len + 1) := by
  simp [scan_suffix, h, ha]

/-- The scan stops at the last `CInitialChar` of the counter and counts the bytes after it. -/
theorem scan_suffix_tail (cfg : Alphabet) (pre : List Nat) (tail1 : List Nat) :
    ∀ (tail2 : List Nat) (len : Nat), (∀ a ∈ tail1, a ≠ CInitialChar cfg) →
      scan_suffix cfg (pre ++ CInitialChar cfg :: (tail1 ++ tail2))
          (pre.length + tail1.length) len =
        some (pre.length, len + tail1.length) := by
  induction tail1 using List.reverseRecOn with
  | nil =>
    intro tail2 len _
    exact scan_suffix_found cfg _ _ _ (by simpa using getElem?_append_cons pre tail2 _)
  | append_singleton t a ih =>
    intro tail2 len hne
    have hget : (pre ++ CInitialChar cfg :: (t ++ [a] ++ tail2))[pre.length + t.length + 1]? =
        some a := by
      rw [List.getElem?_append_right (by omega)]
      rw [show pre.length + t.length + 1 - pre.length = t.length + 1 by omega]
      simpa using getElem?_append_cons t tail2 a
    rw [List.length_append, List.length_singleton, ← Nat.add_assoc,
      scan_suffix_step cfg _ _ _ a hget (hne a (by simp))]
    have h := ih (a :: tail2) (len + 1) (fun b hb => hne b (by simp [hb]))
    rw [show len + 1 + t.length = len + (t.length + 1) by omega] at h
    simpa using h

theorem split_at_last_initial (cfg : Alphabet) (l : List Nat) (h : CInitialChar cfg ∈ l) :
    ∃ pre tail, l = pre ++ CInitialChar cfg :: tail ∧ ∀ a ∈ tail, a ≠ CInitialChar cfg := by
  induction l with
  | nil => simp at h
  | cons a l ih =>
    by_cases hl : CInitialChar cfg ∈ l
    · obtain ⟨pre, tail, hpt, hne⟩ := ih hl
      exact ⟨a :: pre, tail, by rw [hpt]; rfl, hne⟩
    · have ha : a = CInitialChar cfg := by
        rcases List.mem_cons.1 h with h1 | h1
        · exact h1.symm
        · exact absurd h1 hl
      exact ⟨[], l, by rw [ha]; rfl, fun b hb hbe => hl (hbe ▸ hb)⟩

/-- The symbols after the last `CInitialChar` of a counter are the digits of its value after
the last zero digit. -/
theorem rank_symbols_of_value (cfg : Alphabet) (pre : List Nat) (tail : List Nat) :
    (∀ a ∈ pre ++ CInitialChar cfg :: tail, is_symbol cfg a = true) →
      (∀ a ∈ tail, a ≠ CInitialChar cfg) →
      rank_symbols cfg (value_of cfg (pre ++ CInitialChar cfg :: tail)) = tail := by
  have hR := radix_ge_two cfg
  induction tail using List.reverseRecOn with
  | nil =>
    intro _ _
    rw [value_of_append, value_of_cons, digit_of_initial]
    simp only [List.length_nil, pow_zero, Nat.mul_one, value_of_nil, Nat.add_zero,
      List.length_singleton, pow_one, Nat.zero_mul]
    unfold rank_symbols
    by_cases hv : value_of cfg pre = 0
    · simp [hv]
    · have hd := Nat.digits_add (radix cfg) (by omega) 0 (value_of cfg pre) (by omega)
        (Or.inr hv)
      rw [Nat.zero_add, Nat.mul_comm] at hd
      rw [hd]
      simp
  | append_singleton t a ih =>
    intro hsym hne
    have hsa : is_symbol cfg a = true := hsym a (by simp)
    have hda : digit_of cfg a ≠ 0 := fun h => hne a (by simp) (digit_of_eq_zero cfg a hsa h)
    have hlt := digit_of_lt cfg a hsa
    have hih := ih (fun b hb => hsym b (by
        simp only [List.mem_append, List.mem_cons, List.mem_singleton] at hb ⊢
        tauto))
      (fun b hb => hne b (by simp [hb]))
    have hval : value_of cfg (pre ++ CInitialChar cfg :: (t ++ [a])) =
        digit_of cfg a + radix cfg * value_of cfg (pre ++ CInitialChar cfg :: t) := by
      rw [show pre ++ CInitialChar cfg :: (t ++ [a]) = (pre ++ CInitialChar cfg :: t) ++ [a] by
        simp, value_of_append cfg _ [a], value_of_cons]
      simp only [List.length_singleton, pow_one, List.length_nil, pow_zero, Nat.mul_one,
        value_of_nil, Nat.add_zero]
      ring
    rw [hval]
    unfold rank_symbols at hih ⊢
    rw [Nat.digits_add (radix cfg) (by omega) _ _ hlt (Or.inl hda)]
    rw [List.takeWhile_cons_of_pos (by simpa using hda), List.reverse_cons, List.map_append, hih]
    simp [symbol_of_digit_of cfg a hsa]

theorem append_rank_suffix_eq (cfg : Alphabet) (r : Nat) (message : List Nat)
    (hr : r < radix cfg ^ 98) :
    append_rank_suffix cfg r message = .ok (message ++ rank_symbols cfg r) := by
  obtain ⟨s1, hloop, hlen1, hsym1, hval1⟩ := rank_suffix_loop_value cfg r
    (List.replicate CSuffixLength (CInitialChar cfg)) (by simp)
    (fun a ha => by rw [List.eq_of_mem_replicate ha]; exact is_symbol_initial cfg)
    (by rw [value_of_replicate_initial]; omega)
  rw [value_of_replicate_initial, Nat.zero_add] at hval1
  obtain ⟨a0, a1, rest, hrest, hrlen⟩ := length_eq_add_two s1 98 hlen1
  have hlead := leading_symbols_initial cfg a0 a1 rest (by rw [← hrest]; exact hsym1)
    (by rw [← hrest, hval1, hrlen]; exact hr)
  obtain ⟨pre, tail, hsplit, hne⟩ := split_at_last_initial cfg s1
    (by rw [hrest, hlead.1]; simp)
  have hlen2 : pre.length + tail.length = CSuffixLength - 1 := by
    have h := hlen1
    rw [hsplit] at h
    simp only [List.length_append, List.length_cons, CSuffixLength] at h ⊢
    omega
  have hscan : scan_suffix cfg s1 (CSuffixLength - 1) 0 = some (pre.length, tail.length) := by
    have h := scan_suffix_tail cfg pre tail [] 0 hne
    rw [List.append_nil, Nat.zero_add, ← hsplit, hlen2] at h
    exact h
  have htail : (s1.drop (pre.length + 1)).take tail.length = tail := by
    rw [hsplit, show pre ++ CInitialChar cfg :: tail = (pre ++ [CInitialChar cfg]) ++ tail by simp,
      List.drop_left' (by simp), List.take_length]
  have hrank : rank_symbols cfg r = tail := by
    rw [← hval1, hsplit]
    exact rank_symbols_of_value cfg pre tail (by rw [← hsplit]; exact hsym1) hne
  simp only [append_rank_suffix, hloop, hscan, htail, hrank]
  split_ifs with h
  · rfl
  · have : tail = [] := List.length_eq_zero.1 (by omega)
    rw [this, List.append_nil]

/-- The message of the quick sequential strategy: the literal, the rank symbols and the
padding when they fit into `CMessageLen` bytes, the `too long` failure otherwise. -/
theorem initial_message_quick (cfg : Alphabet) (r : Nat) (hr : r < radix cfg ^ 98) :
    initial_message cfg false r =
      if (message_literal cfg).length + (rank_symbols cfg r).length ≤ CMessageLen then
        .ok (message_literal cfg ++ rank_symbols cfg r ++
          pad_symbols cfg
            (CMessageLen - ((message_literal cfg).length + (rank_symbols cfg r).length)))
      else .error .message_too_long := by
  simp only [initial_message, Bool.false_eq_true, if_false, append_rank_suffix_eq cfg r _ hr,
    padding_loop_initial, List.length_append, length_pad_symbols]
  split_ifs with h1 h2 h2
  · omega
  · rfl
  · rfl
  · omega

theorem initial_buf_quick (cfg : Alphabet) (r : Nat) (hr : r < radix cfg ^ 98)
    (hfit : (message_literal cfg).length + (rank_symbols cfg r).length ≤ CMessageLen) :
    initial_buf cfg false r =
      .ok (message_literal cfg ++ rank_symbols cfg r ++
        pad_symbols cfg
          (CMessageLen - ((message_literal cfg).length + (rank_symbols cfg r).length))) := by
  simp only [initial_buf, initial_message_quick cfg r hr, if_pos hfit, Bool.false_eq_true,
    if_false, List.length_append, length_pad_symbols]
  rw [show CMessageLen - ((message_literal cfg).length + (rank_symbols cfg r).length +
      (CMessageLen - ((message_literal cfg).length + (rank_symbols cfg r).length))) = 0 by omega]
  simp

/-! ## The quick sequential strategy: the claims -/

/-- C3: in the default configuration ranks 0 and 77 start on the same candidate
`MixC!0!"#$%&'()*`: after 77 increments the counter ends in `CInitialChar`, the scan for the
rank suffix stops at once and nothing is appended. -/
theorem quick_rank_77_starts_as_rank_0 :
    initial_buf .mixcase_digits_punct false 0 =
        .ok [77, 105, 120, 67, 33, 48, 33, 34, 35, 36, 37, 38, 39, 40, 41, 42] ∧
      initial_buf .mixcase_digits_punct false 77 =
        .ok [77, 105, 120, 67, 33, 48, 33, 34, 35, 36, 37, 38, 39, 40, 41, 42] := by
  constructor <;> decide!

/-- C7, as the claim states it, fails at rank 1: the buffer of rank 1 is `MixC!0"!"#$%&'()`,
one increment of the buffer of rank 0 gives `MixC!0!"#$%&'()+`. -/
theorem quick_rank_1_is_not_base_plus_1 :
    initial_buf .mixcase_digits_punct false 0 =
        .ok [77, 105, 120, 67, 33, 48, 33, 34, 35, 36, 37, 38, 39, 40, 41, 42] ∧
      initial_buf .mixcase_digits_punct false 1 =
        .ok [77, 105, 120, 67, 33, 48, 34, 33, 34, 35, 36, 37, 38, 39, 40, 41] ∧
      repeat_increment .mixcase_digits_punct (CMessageLen - 1) 1
          [77, 105, 120, 67, 33, 48, 33, 34, 35, 36, 37, 38, 39, 40, 41, 42] =
        some [77, 105, 120, 67, 33, 48, 33, 34, 35, 36, 37, 38, 39, 40, 41, 43] ∧
      ¬ ∀ r base buf, initial_buf .mixcase_digits_punct false 0 = .ok base →
        initial_buf .mixcase_digits_punct false r = .ok buf →
        repeat_increment .mixcase_digits_punct (CMessageLen - 1) r base = some buf := by
  refine ⟨by decide!, by decide!, by decide!, ?_⟩
  intro h
  have h1 := h 1 [77, 105, 120, 67, 33, 48, 33, 34, 35, 36, 37, 38, 39, 40, 41, 42]
    [77, 105, 120, 67, 33, 48, 34, 33, 34, 35, 36, 37, 38, 39, 40, 41] (by decide!) (by decide!)
  revert h1
  decide!

theorem rank_symbols_eq_digit_symbols (cfg : Alphabet) (r : Nat)
    (hz : ∀ d ∈ Nat.digits (radix cfg) r, d ≠ 0) :
    rank_symbols cfg r = digit_symbols cfg r := by
  unfold rank_symbols digit_symbols
  rw [List.takeWhile_eq_self_iff.2 (fun d hd => by simpa using hz d hd)]

theorem value_of_digit_list (cfg : Alphabet) (ds : List Nat) (hds : ∀ d ∈ ds, d < radix cfg) :
    value_of cfg (ds.reverse.map (symbol_of cfg)) = Nat.ofDigits (radix cfg) ds := by
  induction ds with
  | nil => rfl
  | cons d ds ih =>
    rw [List.reverse_cons, List.map_append, value_of_append, ih (fun x hx => hds x (by simp [hx])),
      Nat.ofDigits_cons]
    simp only [List.map_cons, List.map_nil, List.length_singleton, pow_one, value_of_cons,
      List.length_nil, pow_zero, Nat.mul_one, value_of_nil, Nat.add_zero,
      digit_of_symbol_of cfg d (hds d (by simp))]
    ring

theorem value_of_digit_symbols (cfg : Alphabet) (r : Nat) :
    value_of cfg (digit_symbols cfg r) = r := by
  unfold digit_symbols
  rw [value_of_digit_list cfg _ (fun d hd => Nat.digits_lt_base (radix_ge_two cfg) hd),
    Nat.ofDigits_digits]

/-- C7, amended: in quick sequential mode, for a rank `r` whose base-`radix` numeral has no
zero digit and fits after the literal, the buffer of rank `r` is the literal, then the
numeral of `r` in symbols of the alphabet (its value is `r`; it is empty for rank 0, whose
buffer is the literal and padding alone), then padding up to `CMessageLen`; the first pass
hashes this buffer and every further pass hashes the buffer of the pass before advanced by
one increment. -/
theorem quick_hashed_buf (cfg : Alphabet) (r n j : Nat)
    (hz : ∀ d ∈ Nat.digits (radix cfg) r, d ≠ 0)
    (hfit : (message_literal cfg).length + (digit_symbols cfg r).length ≤ CMessageLen) :
    initial_buf cfg false r =
        .ok (message_literal cfg ++ digit_symbols cfg r ++
          pad_symbols cfg
            (CMessageLen - ((message_literal cfg).length + (digit_symbols cfg r).length))) ∧
      value_of cfg (digit_symbols cfg r) = r ∧
      digit_symbols cfg 0 = [] ∧
      hashed_buf cfg false r n 0 = initial_buf cfg false r ∧
      (∀ buf, hashed_buf cfg false r n j = .ok buf →
        hashed_buf cfg false r n (j + 1) =
          or_out_of_bounds (increment_char_short cfg (CMessageLen - 1) buf)) := by
  have hlen : (Nat.digits (radix cfg) r).length ≤ CMessageLen := by
    have h := hfit
    simp only [digit_symbols, List.length_map, List.length_reverse] at h
    omega
  have hr : r < radix cfg ^ 98 :=
    Nat.lt_of_lt_of_le (Nat.lt_base_pow_length_digits (radix_ge_two cfg))
      (Nat.pow_le_pow_right (radix_pos cfg)
        (Nat.le_trans hlen (by simp only [CMessageLen]; omega)))
  have hsame := rank_symbols_eq_digit_symbols cfg r hz
  have hinit := initial_buf_quick cfg r hr (by rw [hsame]; exact hfit)
  rw [hsame] at hinit
  refine ⟨hinit, value_of_digit_symbols cfg r, by simp [digit_symbols], ?_, ?_⟩
  · simp only [hashed_buf, hinit, advance_passes, or_out_of_bounds]
  · intro buf hbuf
    simp only [hashed_buf, hinit, advance_passes_quick] at hbuf ⊢
    rw [repeat_increment_add]
    cases hrep : repeat_increment cfg (CMessageLen - 1) j _ with
    | none =>
      rw [hrep] at hbuf
      simp [or_out_of_bounds] at hbuf
    | some b =>
      rw [hrep] at hbuf
      simp only [or_out_of_bounds, Except.ok.injEq] at hbuf
      subst hbuf
      simp only [Option.some_bind, repeat_increment]
      cases increment_char_short cfg (CMessageLen - 1) b <;> rfl

theorem quick_hashed_buf_witness :
    (∀ d ∈ Nat.digits (radix .mixcase_digits_punct) 78, d ≠ 0) ∧
    ((message_literal .mixcase_digits_punct).length +
        (digit_symbols .mixcase_digits_punct 78).length ≤ CMessageLen) ∧
    (initial_buf .mixcase_digits_punct false 78 =
        .ok (message_literal .mixcase_digits_punct ++ digit_symbols .mixcase_digits_punct 78 ++
          pad_symbols .mixcase_digits_punct
            (CMessageLen - ((message_literal .mixcase_digits_punct).length +
              (digit_symbols .mixcase_digits_punct 78).length))) ∧
      value_of .mixcase_digits_punct (digit_symbols .mixcase_digits_punct 78) = 78 ∧
      digit_symbols .mixcase_digits_punct 0 = [] ∧
      hashed_buf .mixcase_digits_punct false 78 106 0 =
        initial_buf .mixcase_digits_punct false 78 ∧
      (∀ buf, hashed_buf .mixcase_digits_punct false 78 106 2 = .ok buf →
        hashed_buf .mixcase_digits_punct false 78 106 (2 + 1) =
          or_out_of_bounds
            (increment_char_short .mixcase_digits_punct (CMessageLen - 1) buf))) :=
  ⟨by simp [radix], by simp [digit_symbols, radix, message_literal, CMessageLen],
    quick_hashed_buf .mixcase_digits_punct 78 106 2 (by simp [radix])
      (by simp [digit_symbols, radix, message_literal, CMessageLen])⟩

/-! ## The structural predicate on nibbles -/

theorem all_isDigit_map (ns : List Nat) (hns : ∀ n ∈ ns, n < 16) :
    (ns.map fun n => dec2hex.getD n '?').all Char.isDigit = ns.all fun m => decide (m ≤ 9) := by
  induction ns with
  | nil => rfl
  | cons m ms ih =>
    simp only [List.map_cons, List.all_cons, dec2hex_isDigit m (hns m (by simp)),
      ih (fun k hk => hns k (by simp [hk]))]

theorem zeros_e_digits_map (ns : List Nat) (hns : ∀ n ∈ ns, n < 16) :
    ∀ z, zeros_e_digits z (ns.map fun n => dec2hex.getD n '?') = zeros_e_decimal z ns := by
  induction ns with
  | nil => intro z; cases z <;> rfl
  | cons n ns ih =>
    intro z
    have hn : n < 16 := hns n (by simp)
    have hrest : ∀ m ∈ ns, m < 16 := fun m hm => hns m (by simp [hm])
    cases z with
    | zero =>
      simp only [List.map_cons, zeros_e_digits, zeros_e_decimal, dec2hex_eq_e n hn,
        all_isDigit_map ns hrest]
      by_cases h : n = 14 <;> simp [h]
    | succ z =>
      simp only [List.map_cons, zeros_e_digits, zeros_e_decimal, dec2hex_eq_zero n hn,
        ih hrest z]
      by_cases h : n = 0 <;> simp [h]

theorem nibble_stream_lt (b : Digest) : ∀ n ∈ nibble_stream b, n < 16 := by
  intro n hn
  simp only [nibble_stream, List.mem_flatMap, List.mem_range, List.mem_cons, List.mem_singleton,
    List.not_mem_nil, or_false] at hn
  obtain ⟨i, -, rfl | rfl⟩ := hn <;> rw [and_15_eq_mod] <;> omega

theorem hash_code_eq_map (b : Digest) :
    hash_code b = (nibble_stream b).map fun n => dec2hex.getD n '?' := by
  simp only [hash_code, nibble_stream, List.map_flatMap, List.map_cons, List.map_nil]

theorem length_nibble_stream (b : Digest) : (nibble_stream b).length = 40 := by
  rfl

theorem zeros_e_decimal_marker (ns : List Nat) :
    ∀ z, zeros_e_decimal z ns = true → ns[z]? = some 0xe := by
  induction ns with
  | nil => intro z h; cases z <;> simp [zeros_e_decimal] at h
  | cons n ns ih =>
    intro z h
    cases z with
    | zero =>
      simp only [zeros_e_decimal, Bool.and_eq_true, beq_iff_eq] at h
      simp [h.1]
    | succ z =>
      simp only [zeros_e_decimal, Bool.and_eq_true] at h
      simpa using ih z h.2

theorem phpmagic_iff_zeros_e_decimal (b : Digest) (hb : is_digest b) :
    is_phpmagic_buf b = true ↔
      ∃ z, 1 ≤ z ∧ z ≤ 7 ∧ zeros_e_decimal z (nibble_stream b) = true := by
  rw [phpmagic_iff_zeros_e_digits b hb, hash_code_eq_map]
  simp only [zeros_e_digits_map _ (nibble_stream_lt b)]

/-- C17: a digest is accepted exactly when its 40 nibbles, high nibble first, are `z` zero
nibbles for some `1 ≤ z ≤ 7`, then the nibble `0xe`, then nibbles of at most 9 only; the
rendering maps the nibbles through `dec2hex`, so an accepted digest renders as zeros, `e`,
decimal digits, and a digest whose first 8 nibbles are zero is rejected. -/
theorem is_phpmagic_buf_iff_nibbles (b : Digest) (hb : is_digest b) :
    (nibble_stream b).length = 40 ∧
      hash_code b = ((nibble_stream b).map fun n => dec2hex.getD n '?') ∧
      (is_phpmagic_buf b = true ↔
        ∃ z, 1 ≤ z ∧ z ≤ 7 ∧ zeros_e_decimal z (nibble_stream b) = true) ∧
      (is_phpmagic_buf b = true → ∃ z, zeros_e_digits z (hash_code b) = true) ∧
      ((∀ k, k < 8 → (nibble_stream b)[k]? = some 0) → is_phpmagic_buf b = false) := by
  refine ⟨length_nibble_stream b, hash_code_eq_map b, phpmagic_iff_zeros_e_decimal b hb, ?_, ?_⟩
  · intro h
    obtain ⟨z, -, -, hz⟩ := (phpmagic_iff_zeros_e_digits b hb).1 h
    exact ⟨z, hz⟩
  · intro hzero
    cases hacc : is_phpmagic_buf b with
    | false => rfl
    | true =>
      obtain ⟨z, -, hz7, hz⟩ := (phpmagic_iff_zeros_e_decimal b hb).1 hacc
      have h1 := zeros_e_decimal_marker _ z hz
      rw [hzero z (by omega)] at h1
      exact absurd h1 (by decide)

theorem is_phpmagic_buf_iff_nibbles_witness :
    is_digest sample_0e ∧
    ((nibble_stream sample_0e).length = 40 ∧
      hash_code sample_0e = ((nibble_stream sample_0e).map fun n => dec2hex.getD n '?') ∧
      (is_phpmagic_buf sample_0e = true ↔
        ∃ z, 1 ≤ z ∧ z ≤ 7 ∧ zeros_e_decimal z (nibble_stream sample_0e) = true) ∧
      (is_phpmagic_buf sample_0e = true → ∃ z, zeros_e_digits z (hash_code sample_0e) = true) ∧
      ((∀ k, k < 8 → (nibble_stream sample_0e)[k]? = some 0) →
        is_phpmagic_buf sample_0e = false)) :=
  ⟨by decide, is_phpmagic_buf_iff_nibbles sample_0e (by decide)⟩

/-- C16: a digest whose byte 0 is neither `0x00` nor `0x0e` is rejected whatever its other
bytes are; a byte value can start an accepted digest exactly when it is `0x00` or `0x0e`,
which are 2 of the 256 byte values. -/
theorem is_phpmagic_buf_byte0_other (b : Digest) (_hb : is_digest b)
    (h00 : b.getD 0 0 ≠ 0x00) (h0e : b.getD 0 0 ≠ 0x0e) :
    is_phpmagic_buf b = false ∧
      (∀ x, x < 256 →
        ((∃ d : Digest, is_digest d ∧ d.getD 0 0 = x ∧ is_phpmagic_buf d = true) ↔
          (x = 0x00 ∨ x = 0x0e))) ∧
      ((List.range 256).filter fun x => decide (x = 0x00 ∨ x = 0x0e)).length = 2 ∧
      256 / 2 = 128 := by
  have hrej : ∀ d : Digest, d.getD 0 0 ≠ 0x00 → d.getD 0 0 ≠ 0x0e →
      is_phpmagic_buf d = false := by
    intro d h1 h2
    simp only [is_phpmagic_buf, CChar0E, CChar00]
    rw [if_neg h2, if_neg h1]
  refine ⟨hrej b h00 h0e, ?_, by decide, by decide⟩
  intro x _
  constructor
  · rintro ⟨d, -, hx, hacc⟩
    by_contra hcon
    push_neg at hcon
    rw [hrej d (by rw [hx]; exact hcon.1) (by rw [hx]; exact hcon.2)] at hacc
    exact absurd hacc (by decide)
  · rintro (rfl | rfl)
    · exact ⟨sample_00e_upper, by decide, by decide, by decide⟩
    · exact ⟨sample_0e, by decide, by decide, by decide⟩

/-- A digest that starts with the byte `0x1e`. -/
theorem is_phpmagic_buf_byte0_other_witness :
    is_digest (0x1e :: List.replicate 19 0x00) ∧
    (0x1e :: List.replicate 19 0x00).getD 0 0 ≠ 0x00 ∧
    (0x1e :: List.replicate 19 0x00).getD 0 0 ≠ 0x0e ∧
    (is_phpmagic_buf (0x1e :: List.replicate 19 0x00) = false ∧
      (∀ x, x < 256 →
        ((∃ d : Digest, is_digest d ∧ d.getD 0 0 = x ∧ is_phpmagic_buf d = true) ↔
          (x = 0x00 ∨ x = 0x0e))) ∧
      ((List.range 256).filter fun x => decide (x = 0x00 ∨ x = 0x0e)).length = 2 ∧
      256 / 2 = 128) :=
  ⟨by decide, by decide, by decide,
    is_phpmagic_buf_byte0_other (0x1e :: List.replicate 19 0x00) (by decide) (by decide)
      (by decide)⟩

/-! ## What one increment reads and writes -/

theorem carry_walk_frame (cfg : Alphabet) (c : Nat) :
    ∀ buf buf1 : List Nat, carry_walk cfg c buf = some buf1 →
      buf1.length = buf.length ∧ ∀ k, c < k → buf1[k]? = buf[k]? := by
  induction c with
  | zero =>
    intro buf buf1 h
    cases ha : buf[0]? with
    | none => rw [carry_walk_outside cfg 0 buf ha] at h; exact absurd h (by simp)
    | some a =>
      by_cases hl : a = last_symbol cfg
      · subst hl
        rw [carry_walk_zero_last cfg buf ha] at h
        exact absurd h (by simp)
      · rw [carry_walk_of_ne cfg 0 buf a ha hl] at h
        have hb := Option.some.inj h
        subst hb
        refine ⟨by simp, fun k hk => ?_⟩
        rw [List.getElem?_set_ne (by omega)]
  | succ c ih =>
    intro buf buf1 h
    cases ha : buf[c + 1]? with
    | none => rw [carry_walk_outside cfg _ buf ha] at h; exact absurd h (by simp)
    | some a =>
      by_cases hl : a = last_symbol cfg
      · subst hl
        rw [carry_walk_of_last cfg c buf ha] at h
        obtain ⟨h1, h2⟩ := ih _ _ h
        refine ⟨by simpa using h1, fun k hk => ?_⟩
        rw [h2 k (by omega), List.getElem?_set_ne (by omega)]
      · rw [carry_walk_of_ne cfg _ buf a ha hl] at h
        have hb := Option.some.inj h
        subst hb
        refine ⟨by simp, fun k hk => ?_⟩
        rw [List.getElem?_set_ne (by omega)]

/-- Either the walk stops at the last byte up to the cursor that is not the wrapping symbol,
or all bytes up to the cursor are the wrapping symbol and the walk leaves the buffer. -/
theorem increment_cases (cfg : Alphabet) (i : Nat) (buf : List Nat) (hi : i < buf.length) :
    (∃ pre x n post, buf = pre ++ x :: (List.replicate n (last_symbol cfg) ++ post) ∧
        i = pre.length + n ∧ x ≠ last_symbol cfg ∧
        increment_char_short cfg i buf =
          some (pre ++ next_byte cfg x :: (List.replicate n (CInitialChar cfg) ++ post))) ∨
      (∃ post, buf = List.replicate (i + 1) (last_symbol cfg) ++ post ∧
        increment_char_short cfg i buf = none) := by
  have hlen : (buf.take (i + 1)).length = i + 1 := by
    rw [List.length_take]; omega
  have hsplit : buf = buf.take (i + 1) ++ buf.drop (i + 1) := (List.take_append_drop _ _).symm
  rcases trailing_last_cases cfg (buf.take (i + 1)) with ⟨pre, x, n, htake, hx⟩ | hall
  · left
    have hidx : i = pre.length + n := by
      rw [htake] at hlen
      simp at hlen
      omega
    have hbuf : buf = pre ++ x :: (List.replicate n (last_symbol cfg) ++ buf.drop (i + 1)) := by
      nth_rewrite 1 [hsplit]
      rw [htake]
      simp
    refine ⟨pre, x, n, buf.drop (i + 1), hbuf, hidx, hx, ?_⟩
    rw [increment_char_short_eq_carry_walk]
    nth_rewrite 1 [hbuf]
    rw [hidx]
    exact carry_walk_stop cfg x hx n pre _
  · right
    rw [hlen] at hall
    have hbuf : buf = List.replicate (i + 1) (last_symbol cfg) ++ buf.drop (i + 1) := by
      nth_rewrite 1 [hsplit]
      rw [hall]
    refine ⟨buf.drop (i + 1), hbuf, ?_⟩
    rw [increment_char_short_eq_carry_walk, hbuf]
    exact carry_walk_overflow cfg i _

theorem getD_replicate_append (a : Nat) (n k : Nat) (post : List Nat) (hk : k < n) :
    (List.replicate n a ++ post).getD k 0 = a := by
  rw [List.getD_eq_getElem?_getD, List.getElem?_append_left (by simpa using hk)]
  simp [hk]

theorem getD_append_cons (pre post : List Nat) (x : Nat) :
    (pre ++ x :: post).getD pre.length 0 = x := by
  rw [List.getD_eq_getElem?_getD, getElem?_append_cons]
  rfl

/-! ## The alphabet counter: further claims -/

/-- C15: the mixed-case, digits and punctuation counter on a cursor byte `c` other than `'z'`
returns the buffer with that byte alone replaced, by `'A'` for `'9'`, by `'a'` for `'Z'` and by
`c + 1` in byte arithmetic otherwise (`c + 1` itself for every `c` below 255). -/
theorem punctuation_increment_frame (buf : List Nat) (i c : Nat) (hc : buf[i]? = some c)
    (hz : c ≠ 122) :
    ∃ buf1, increment_char_mixedcase_with_digits_and_punctuation i buf = some buf1 ∧
      buf1.length = buf.length ∧ (∀ k, k ≠ i → buf1[k]? = buf[k]?) ∧
      buf1[i]? = some (if c = 57 then 65 else if c = 90 then 97 else (c + 1) % 256) ∧
      (c < 255 → (c + 1) % 256 = c + 1) := by
  have hlt : i < buf.length := by
    by_contra hcon
    rw [List.getElem?_eq_none (by omega)] at hc
    exact absurd hc (by simp)
  refine ⟨buf.set i (if c = 57 then 65 else if c = 90 then 97 else (c + 1) % 256), ?_, by simp,
    fun k hk => List.getElem?_set_ne (Ne.symm hk), List.getElem?_set_eq_of_lt _ hlt,
    fun h => Nat.mod_eq_of_lt (by omega)⟩
  cases i <;>
    simp only [increment_char_mixedcase_with_digits_and_punctuation, hc, hz, if_false] <;>
    split_ifs <;> rfl

theorem punctuation_increment_frame_witness :
    ([77, 57, 33][1]? = some 57) ∧ (57 ≠ 122) ∧
    (∃ buf1, increment_char_mixedcase_with_digits_and_punctuation 1 [77, 57, 33] = some buf1 ∧
      buf1.length = [77, 57, 33].length ∧ (∀ k, k ≠ 1 → buf1[k]? = [77, 57, 33][k]?) ∧
      buf1[1]? = some (if 57 = 57 then 65 else if 57 = 90 then 97 else (57 + 1) % 256) ∧
      (57 < 255 → (57 + 1) % 256 = 57 + 1)) :=
  ⟨by decide, by decide, punctuation_increment_frame [77, 57, 33] 1 57 (by decide) (by decide)⟩

/-- C18: with the cursor `i` inside the buffer, the increment returns a buffer exactly when
some byte at `0..i` is not the wrapping symbol; it then keeps the length and every byte after
`i`, and in any case its outcome is that of the increment on the bytes `0..i` alone with the
bytes after `i` put back; with the wrapping symbol at all of `0..i` the walk steps below
index 0 and the result is `none`. -/
theorem increment_in_bounds_iff (cfg : Alphabet) (i : Nat) (buf : List Nat)
    (hi : i < buf.length) :
    ((∃ buf1, increment_char_short cfg i buf = some buf1) ↔
      ∃ k, k ≤ i ∧ buf.getD k 0 ≠ last_symbol cfg) ∧
    (∀ buf1, increment_char_short cfg i buf = some buf1 →
      buf1.length = buf.length ∧ ∀ k, i < k → buf1[k]? = buf[k]?) ∧
    increment_char_short cfg i buf =
      (increment_char_short cfg i (buf.take (i + 1))).map (fun l => l ++ buf.drop (i + 1)) ∧
    ((∀ k, k ≤ i → buf.getD k 0 = last_symbol cfg) → increment_char_short cfg i buf = none) := by
  have hcases := increment_cases cfg i buf hi
  have hnone : (∀ k, k ≤ i → buf.getD k 0 = last_symbol cfg) →
      increment_char_short cfg i buf = none := by
    intro hall
    rcases hcases with ⟨pre, x, n, post, hbuf, hidx, hx, -⟩ | ⟨post, -, hn⟩
    · have h := hall pre.length (by omega)
      rw [hbuf, getD_append_cons] at h
      exact absurd h hx
    · exact hn
  refine ⟨⟨?_, ?_⟩, ?_, ?_, hnone⟩
  · rintro ⟨buf1, h1⟩
    by_contra hcon
    push_neg at hcon
    rw [hnone hcon] at h1
    exact absurd h1 (by simp)
  · rintro ⟨k, hk, hne⟩
    rcases hcases with ⟨pre, x, n, post, -, -, -, hs⟩ | ⟨post, hbuf, -⟩
    · exact ⟨_, hs⟩
    · rw [hbuf, getD_replicate_append _ _ _ _ (by omega)] at hne
      exact absurd rfl hne
  · intro buf1 h
    rw [increment_char_short_eq_carry_walk] at h
    exact carry_walk_frame cfg i buf buf1 h
  · rw [increment_char_short_eq_carry_walk, increment_char_short_eq_carry_walk]
    nth_rewrite 1 [← List.take_append_drop (i + 1) buf]
    exact carry_walk_append cfg i _ _ (by rw [List.length_take]; omega)

theorem increment_in_bounds_iff_witness :
    (1 < [122, 122, 97].length) ∧
    (((∃ buf1, increment_char_short .lowercase_only 1 [122, 122, 97] = some buf1) ↔
      ∃ k, k ≤ 1 ∧ [122, 122, 97].getD k 0 ≠ last_symbol .lowercase_only) ∧
    (∀ buf1, increment_char_short .lowercase_only 1 [122, 122, 97] = some buf1 →
      buf1.length = [122, 122, 97].length ∧ ∀ k, 1 < k → buf1[k]? = [122, 122, 97][k]?) ∧
    increment_char_short .lowercase_only 1 [122, 122, 97] =
      (increment_char_short .lowercase_only 1 ([122, 122, 97].take (1 + 1))).map
        (fun l => l ++ [122, 122, 97].drop (1 + 1)) ∧
    ((∀ k, k ≤ 1 → [122, 122, 97].getD k 0 = last_symbol .lowercase_only) →
      increment_char_short .lowercase_only 1 [122, 122, 97] = none)) :=
  ⟨by decide, increment_in_bounds_iff .lowercase_only 1 [122, 122, 97] (by decide)⟩

/-! ## The start-up: rank symbols of small ranks and the length check -/

theorem rank_symbols_zero (cfg : Alphabet) : rank_symbols cfg 0 = [] := by
  simp [rank_symbols]

theorem rank_symbols_small (cfg : Alphabet) (r : Nat) (h1 : 1 ≤ r) (hr : r < radix cfg) :
    rank_symbols cfg r = [symbol_of cfg r] := by
  unfold rank_symbols
  rw [Nat.digits_of_lt (radix cfg) r (by omega) hr]
  have hne : r ≠ 0 := by omega
  simp [List.takeWhile_cons, hne]

theorem radix_pow_98_gt (cfg : Alphabet) : 2 ^ 31 ≤ radix cfg ^ 98 := by
  cases cfg <;> decide

theorem radix_le_pow_98 (cfg : Alphabet) : radix cfg ≤ radix cfg ^ 98 :=
  Nat.le_self_pow (by decide) _

theorem length_rank_symbols_le (cfg : Alphabet) (r : Nat) :
    (rank_symbols cfg r).length ≤ (Nat.digits (radix cfg) r).length := by
  unfold rank_symbols
  rw [List.length_map, List.length_reverse]
  exact (List.takeWhile_sublist _).length_le

theorem length_digits_le (b r m : Nat) (hb : 1 < b) (hr : r < b ^ m) :
    (Nat.digits b r).length ≤ m := by
  by_cases h0 : r = 0
  · simp [h0]
  · have h1 := Nat.base_pow_length_digits_le b r hb h0
    have h2 : b * r < b ^ (m + 1) := by
      rw [pow_succ, Nat.mul_comm]
      exact Nat.mul_lt_mul_of_pos_right hr (by omega)
    have h3 : b ^ (Nat.digits b r).length < b ^ (m + 1) := Nat.lt_of_le_of_lt h1 h2
    have h4 := (Nat.pow_lt_pow_iff_right hb).1 h3
    omega

theorem is_symbol_rank_symbols (cfg : Alphabet) (r : Nat) :
    ∀ a ∈ rank_symbols cfg r, is_symbol cfg a = true := by
  intro a ha
  simp only [rank_symbols, List.mem_map, List.mem_reverse] at ha
  obtain ⟨d, hd, rfl⟩ := ha
  have hmem : d ∈ Nat.digits (radix cfg) r := (List.takeWhile_sublist _).subset hd
  exact is_symbol_symbol_of cfg d (Nat.digits_lt_base (radix_ge_two cfg) hmem)

theorem initial_buf_stepover_zero (cfg : Alphabet) :
    initial_buf cfg true 0 =
      .ok (message_literal cfg ++
        pad_symbols cfg (CMessageLen - (message_literal cfg).length)) := by
  have hlit := length_message_literal_le cfg
  simp only [initial_buf, initial_message_stepover, if_true, repeat_increment, or_out_of_bounds,
    List.length_append, length_pad_symbols]
  rw [show CMessageLen - ((message_literal cfg).length +
      (CMessageLen - (message_literal cfg).length)) = 0 by simp only [CMessageLen]; omega]
  simp

theorem initial_buf_quick_zero (cfg : Alphabet) :
    initial_buf cfg false 0 =
      .ok (message_literal cfg ++
        pad_symbols cfg (CMessageLen - (message_literal cfg).length)) := by
  have hlit := length_message_literal_le cfg
  have h := initial_buf_quick cfg 0 (pow_pos (radix_pos cfg) _)
    (by rw [rank_symbols_zero]; simp only [List.length_nil, CMessageLen]; omega)
  rw [rank_symbols_zero] at h
  simpa using h

/-- C13: with one worker, rank 0, both strategies start on the literal followed by padding,
with no rank suffix, both advance it by one increment per pass, and they hash the same
buffer in every pass. -/
theorem single_worker_strategies_agree (cfg : Alphabet) (j : Nat) :
    initial_buf cfg false 0 =
        .ok (message_literal cfg ++
          pad_symbols cfg (CMessageLen - (message_literal cfg).length)) ∧
      initial_buf cfg true 0 =
        .ok (message_literal cfg ++
          pad_symbols cfg (CMessageLen - (message_literal cfg).length)) ∧
      (∀ buf, loop_advance cfg false 1 buf = increment_char_short cfg (CMessageLen - 1) buf ∧
        loop_advance cfg true 1 buf = increment_char_short cfg (CMessageLen - 1) buf) ∧
      hashed_buf cfg false 0 1 j = hashed_buf cfg true 0 1 j ∧
      hashed_buf cfg true 0 1 j =
        or_out_of_bounds (repeat_increment cfg (CMessageLen - 1) j
          (message_literal cfg ++
            pad_symbols cfg (CMessageLen - (message_literal cfg).length))) := by
  have hq : hashed_buf cfg false 0 1 j =
      or_out_of_bounds (repeat_increment cfg (CMessageLen - 1) j
        (message_literal cfg ++
          pad_symbols cfg (CMessageLen - (message_literal cfg).length))) := by
    simp only [hashed_buf, initial_buf_quick_zero, advance_passes_quick]
  have hs : hashed_buf cfg true 0 1 j =
      or_out_of_bounds (repeat_increment cfg (CMessageLen - 1) j
        (message_literal cfg ++
          pad_symbols cfg (CMessageLen - (message_literal cfg).length))) := by
    simp only [hashed_buf, initial_buf_stepover_zero, advance_passes_stepover, Nat.mul_one]
  refine ⟨initial_buf_quick_zero cfg, initial_buf_stepover_zero cfg, ?_, by rw [hq, hs], hs⟩
  intro buf
  refine ⟨by simp [loop_advance], ?_⟩
  simp only [loop_advance, if_true, repeat_increment]
  cases increment_char_short cfg (CMessageLen - 1) buf <;> rfl

/-- C12: for a rank below `radix ^ 98` (every `int` rank is) the start-up ends with the
`too long` failure exactly when the length of the literal plus the length of the rank suffix
(no suffix in stepover mode) exceeds `CMessageLen`; the search loop then hashes nothing, and
in every other case the message has exactly `CMessageLen` bytes. -/
theorem too_long_iff (cfg : Alphabet) (stepover_run : Bool) (r : Nat)
    (hr : r < radix cfg ^ 98) :
    2 ^ 31 ≤ radix cfg ^ 98 ∧
    append_rank_suffix cfg r (message_literal cfg) =
      .ok (message_literal cfg ++ rank_symbols cfg r) ∧
    (initial_message cfg stepover_run r = .error .message_too_long ↔
      CMessageLen < (message_literal cfg).length +
        (if stepover_run then 0 else (rank_symbols cfg r).length)) ∧
    (initial_message cfg stepover_run r = .error .message_too_long →
      ∀ n j, hashed_buf cfg stepover_run r n j = .error .message_too_long) ∧
    (¬ CMessageLen < (message_literal cfg).length +
        (if stepover_run then 0 else (rank_symbols cfg r).length) →
      ∃ message, initial_message cfg stepover_run r = .ok message ∧
        message.length = CMessageLen) := by
  have hlit := length_message_literal_le cfg
  refine ⟨radix_pow_98_gt cfg, append_rank_suffix_eq cfg r _ hr, ?_, ?_, ?_⟩
  · cases stepover_run with
    | true =>
      rw [initial_message_stepover]
      simp only [if_true, CMessageLen]
      constructor
      · intro h; exact absurd h (by simp)
      · intro h; omega
    | false =>
      rw [initial_message_quick cfg r hr]
      simp only [Bool.false_eq_true, if_false]
      split_ifs with h
      · constructor
        · intro h1; exact absurd h1 (by simp)
        · intro h1; omega
      · constructor
        · intro _; omega
        · intro _; rfl
  · intro h n j
    simp only [hashed_buf, initial_buf, h]
  · intro h
    cases stepover_run with
    | true =>
      refine ⟨_, initial_message_stepover cfg r, ?_⟩
      simp only [List.length_append, length_pad_symbols, CMessageLen]
      omega
    | false =>
      simp only [Bool.false_eq_true, if_false] at h
      refine ⟨_, by rw [initial_message_quick cfg r hr, if_pos (by omega)], ?_⟩
      simp only [List.length_append, length_pad_symbols]
      omega

theorem too_long_iff_witness :
    (931151403 < radix .mixed_case_with_digits ^ 98) ∧
    (2 ^ 31 ≤ radix .mixed_case_with_digits ^ 98 ∧
    append_rank_suffix .mixed_case_with_digits 931151403
        (message_literal .mixed_case_with_digits) =
      .ok (message_literal .mixed_case_with_digits ++
        rank_symbols .mixed_case_with_digits 931151403) ∧
    (initial_message .mixed_case_with_digits false 931151403 = .error .message_too_long ↔
      CMessageLen < (message_literal .mixed_case_with_digits).length +
        (if false = true then 0 else (rank_symbols .mixed_case_with_digits 931151403).length)) ∧
    (initial_message .mixed_case_with_digits false 931151403 = .error .message_too_long →
      ∀ n j, hashed_buf .mixed_case_with_digits false 931151403 n j =
        .error .message_too_long) ∧
    (¬ CMessageLen < (message_literal .mixed_case_with_digits).length +
        (if false = true then 0 else (rank_symbols .mixed_case_with_digits 931151403).length) →
      ∃ message, initial_message .mixed_case_with_digits false 931151403 = .ok message ∧
        message.length = CMessageLen)) :=
  ⟨by decide, too_long_iff .mixed_case_with_digits false 931151403 (by decide)⟩

theorem pad_symbols_succ (cfg : Alphabet) (m : Nat) :
    pad_symbols cfg (m + 1) =
      symbol_of cfg 0 :: (List.range m).map fun k => symbol_of cfg ((k + 1) % radix cfg) := by
  simp only [pad_symbols, List.range_succ_eq_map, List.map_cons, List.map_map]
  rw [Nat.zero_mod]
  rfl

/-- Below the radix, the byte after the literal is the symbol of the rank. -/
theorem quick_message_small (cfg : Alphabet) (r : Nat) (hr : r < radix cfg) :
    ∃ rest, initial_message cfg false r = .ok (message_literal cfg ++ symbol_of cfg r :: rest) ∧
      initial_buf cfg false r = .ok (message_literal cfg ++ symbol_of cfg r :: rest) := by
  have hlit := length_message_literal_le cfg
  have hr98 : r < radix cfg ^ 98 := Nat.lt_of_lt_of_le hr (radix_le_pow_98 cfg)
  by_cases h0 : r = 0
  · subst h0
    have hfit : (message_literal cfg).length + (rank_symbols cfg 0).length ≤ CMessageLen := by
      rw [rank_symbols_zero]; simp only [List.length_nil, CMessageLen]; omega
    have hm := initial_message_quick cfg 0 hr98
    have hb := initial_buf_quick cfg 0 hr98 hfit
    rw [if_pos hfit] at hm
    rw [rank_symbols_zero] at hm hb
    simp only [List.append_nil, List.length_nil, Nat.add_zero] at hm hb
    obtain ⟨m, hmeq⟩ : ∃ m, CMessageLen - (message_literal cfg).length = m + 1 :=
      ⟨CMessageLen - (message_literal cfg).length - 1, by simp only [CMessageLen]; omega⟩
    rw [hmeq, pad_symbols_succ] at hm hb
    exact ⟨_, hm, hb⟩
  · have hrs := rank_symbols_small cfg r (by omega) hr
    have hfit : (message_literal cfg).length + (rank_symbols cfg r).length ≤ CMessageLen := by
      rw [hrs]; simp only [List.length_singleton, CMessageLen]; omega
    have hm := initial_message_quick cfg r hr98
    have hb := initial_buf_quick cfg r hr98 hfit
    rw [if_pos hfit] at hm
    rw [hrs] at hm hb
    simp only [List.append_assoc, List.singleton_append] at hm hb
    exact ⟨_, hm, hb⟩

theorem symbol_of_injective (cfg : Alphabet) (r1 r2 : Nat) (h1 : r1 < radix cfg)
    (h2 : r2 < radix cfg) (h : symbol_of cfg r1 = symbol_of cfg r2) : r1 = r2 := by
  rw [← digit_of_symbol_of cfg r1 h1, ← digit_of_symbol_of cfg r2 h2, h]

/-- C20: in quick sequential mode two different ranks below the size of the alphabet (77 in
the default configuration) start on different messages: rank 0 on the literal and padding,
a rank `r ≥ 1` on the literal, the symbol at position `r` of the alphabet, and padding. -/
theorem quick_small_ranks_differ (cfg : Alphabet) (r1 r2 : Nat) (h1 : r1 < radix cfg)
    (h2 : r2 < radix cfg) (hne : r1 ≠ r2) :
    initial_message cfg false r1 ≠ initial_message cfg false r2 ∧
      initial_buf cfg false r1 ≠ initial_buf cfg false r2 ∧
      initial_message cfg false 0 =
        .ok (message_literal cfg ++
          pad_symbols cfg (CMessageLen - (message_literal cfg).length)) ∧
      (∀ r, 1 ≤ r → r < radix cfg →
        initial_message cfg false r =
          .ok (message_literal cfg ++ symbol_of cfg r ::
            pad_symbols cfg (CMessageLen - ((message_literal cfg).length + 1)))) ∧
      radix .mixcase_digits_punct = 77 ∧ symbol_of cfg 0 = CInitialChar cfg := by
  have hlit := length_message_literal_le cfg
  obtain ⟨rest1, hm1, hb1⟩ := quick_message_small cfg r1 h1
  obtain ⟨rest2, hm2, hb2⟩ := quick_message_small cfg r2 h2
  have hdiff : message_literal cfg ++ symbol_of cfg r1 :: rest1 ≠
      message_literal cfg ++ symbol_of cfg r2 :: rest2 := by
    intro h
    have h3 := List.append_cancel_left h
    exact hne (symbol_of_injective cfg r1 r2 h1 h2 (List.cons.inj h3).1)
  refine ⟨?_, ?_, ?_, ?_, rfl, symbol_of_zero cfg⟩
  · rw [hm1, hm2]
    exact fun h => hdiff (Except.ok.inj h)
  · rw [hb1, hb2]
    exact fun h => hdiff (Except.ok.inj h)
  · have hm := initial_message_quick cfg 0 (pow_pos (radix_pos cfg) _)
    rw [rank_symbols_zero, if_pos (by simp only [List.length_nil, CMessageLen]; omega)] at hm
    simpa using hm
  · intro r hr1 hr
    have hm := initial_message_quick cfg r (Nat.lt_of_lt_of_le hr (radix_le_pow_98 cfg))
    rw [rank_symbols_small cfg r hr1 hr,
      if_pos (by simp only [List.length_singleton, CMessageLen]; omega)] at hm
    simpa using hm

theorem quick_small_ranks_differ_witness :
    (0 < radix .mixcase_digits_punct) ∧ (76 < radix .mixcase_digits_punct) ∧ (0 ≠ 76) ∧
    (initial_message .mixcase_digits_punct false 0 ≠
        initial_message .mixcase_digits_punct false 76 ∧
      initial_buf .mixcase_digits_punct false 0 ≠ initial_buf .mixcase_digits_punct false 76 ∧
      initial_message .mixcase_digits_punct false 0 =
        .ok (message_literal .mixcase_digits_punct ++
          pad_symbols .mixcase_digits_punct
            (CMessageLen - (message_literal .mixcase_digits_punct).length)) ∧
      (∀ r, 1 ≤ r → r < radix .mixcase_digits_punct →
        initial_message .mixcase_digits_punct false r =
          .ok (message_literal .mixcase_digits_punct ++ symbol_of .mixcase_digits_punct r ::
            pad_symbols .mixcase_digits_punct
              (CMessageLen - ((message_literal .mixcase_digits_punct).length + 1)))) ∧
      radix .mixcase_digits_punct = 77 ∧
      symbol_of .mixcase_digits_punct 0 = CInitialChar .mixcase_digits_punct) :=
  ⟨by decide, by decide, by decide,
    quick_small_ranks_differ .mixcase_digits_punct 0 76 (by decide) (by decide) (by decide)⟩

/-! ## The buffers of the default configuration -/

theorem increment_keeps_symbols (cfg : Alphabet) (buf buf1 : List Nat)
    (hsym : ∀ a ∈ buf, is_symbol cfg a = true)
    (h : increment_char_short cfg (buf.length - 1) buf = some buf1) :
    buf1.length = buf.length ∧ ∀ a ∈ buf1, is_symbol cfg a = true := by
  by_cases hnot : ∃ a ∈ buf, a ≠ last_symbol cfg
  · obtain ⟨mid1, hinc, hlen1, hsym1, -⟩ := increment_region cfg [] buf [] hsym hnot
    simp only [List.length_nil, Nat.zero_add, List.nil_append, List.append_nil] at hinc
    rw [hinc] at h
    have hb := Option.some.inj h
    subst hb
    exact ⟨hlen1, hsym1⟩
  · push_neg at hnot
    have hall : buf = List.replicate buf.length (last_symbol cfg) :=
      List.eq_replicate_iff.2 ⟨rfl, hnot⟩
    by_cases hne : buf = []
    · subst hne
      rw [increment_char_short_eq_carry_walk, carry_walk_outside cfg _ _ (by simp)] at h
      exact absurd h (by simp)
    · have hpos : 0 < buf.length := List.length_pos.2 hne
      have ho := carry_walk_overflow cfg (buf.length - 1) []
      rw [show buf.length - 1 + 1 = buf.length by omega, List.append_nil, ← hall] at ho
      rw [increment_char_short_eq_carry_walk, ho] at h
      exact absurd h (by simp)

theorem repeat_increment_keeps_symbols (cfg : Alphabet) (j : Nat) :
    ∀ buf buf1 : List Nat, (∀ a ∈ buf, is_symbol cfg a = true) →
      repeat_increment cfg (buf.length - 1) j buf = some buf1 →
      buf1.length = buf.length ∧ ∀ a ∈ buf1, is_symbol cfg a = true := by
  induction j with
  | zero =>
    intro buf buf1 hsym h
    have hb := Option.some.inj h
    subst hb
    exact ⟨rfl, hsym⟩
  | succ j ih =>
    intro buf buf1 hsym h
    simp only [repeat_increment] at h
    cases hinc : increment_char_short cfg (buf.length - 1) buf with
    | none => rw [hinc] at h; exact absurd h (by simp)
    | some b =>
      rw [hinc] at h
      obtain ⟨h1, h2⟩ := increment_keeps_symbols cfg buf b hsym hinc
      rw [← h1] at h
      obtain ⟨h3, h4⟩ := ih b buf1 h2 h
      exact ⟨by omega, h4⟩

/-- C19: in the default configuration and quick sequential mode, for every rank below
`2 ^ 31` the start-up yields a buffer, and every buffer the search loop hashes has 16 bytes
that are symbols of the alphabet (`'!'..'9'`, `'A'..'Z'`, `'a'..'z'`, 77 byte values); pass
`j` hashes a buffer as long as the value of the first buffer plus `j` stays below `77 ^ 16`. -/
theorem default_quick_buffers (r n : Nat) (hr : r < 2 ^ 31) :
    (∃ buf0, initial_buf .mixcase_digits_punct false r = .ok buf0 ∧
      hashed_buf .mixcase_digits_punct false r n 0 = .ok buf0 ∧
      ∀ j, value_of .mixcase_digits_punct buf0 + j < 77 ^ 16 →
        ∃ buf, hashed_buf .mixcase_digits_punct false r n j = .ok buf) ∧
    (∀ j buf, hashed_buf .mixcase_digits_punct false r n j = .ok buf →
      buf.length = 16 ∧ ∀ a ∈ buf, is_symbol .mixcase_digits_punct a = true) ∧
    (∀ a, is_symbol .mixcase_digits_punct a = true ↔
      (33 ≤ a ∧ a ≤ 57) ∨ (65 ≤ a ∧ a ≤ 90) ∨ (97 ≤ a ∧ a ≤ 122)) ∧
    ((List.range 256).filter (is_symbol .mixcase_digits_punct)).length = 77 := by
  have hr98 : r < radix .mixcase_digits_punct ^ 98 :=
    Nat.lt_of_lt_of_le hr (radix_pow_98_gt _)
  have hdig : (rank_symbols .mixcase_digits_punct r).length ≤ 5 :=
    Nat.le_trans (length_rank_symbols_le _ r)
      (length_digits_le _ r 5 (by decide) (Nat.lt_of_lt_of_le hr (by decide)))
  have hlit : (message_literal .mixcase_digits_punct).length = 6 := by decide
  have hfit : (message_literal .mixcase_digits_punct).length +
      (rank_symbols .mixcase_digits_punct r).length ≤ CMessageLen := by
    rw [hlit]; simp only [CMessageLen]; omega
  have hinit := initial_buf_quick .mixcase_digits_punct r hr98 hfit
  have hlen0 : (message_literal .mixcase_digits_punct ++ rank_symbols .mixcase_digits_punct r ++
      pad_symbols .mixcase_digits_punct (CMessageLen -
        ((message_literal .mixcase_digits_punct).length +
          (rank_symbols .mixcase_digits_punct r).length))).length = 16 := by
    simp only [List.length_append, length_pad_symbols, hlit, CMessageLen]
    omega
  have hsym0 : ∀ a ∈ message_literal .mixcase_digits_punct ++
      rank_symbols .mixcase_digits_punct r ++
      pad_symbols .mixcase_digits_punct (CMessageLen -
        ((message_literal .mixcase_digits_punct).length +
          (rank_symbols .mixcase_digits_punct r).length)),
      is_symbol .mixcase_digits_punct a = true := by
    intro a ha
    rcases List.mem_append.1 ha with h | h
    · rcases List.mem_append.1 h with h | h
      · exact is_symbol_message_literal _ a h
      · exact is_symbol_rank_symbols _ r a h
    · exact is_symbol_pad_symbols _ _ a h
  have hhash : ∀ j, hashed_buf .mixcase_digits_punct false r n j =
      or_out_of_bounds (repeat_increment .mixcase_digits_punct (CMessageLen - 1) j
        (message_literal .mixcase_digits_punct ++ rank_symbols .mixcase_digits_punct r ++
          pad_symbols .mixcase_digits_punct (CMessageLen -
            ((message_literal .mixcase_digits_punct).length +
              (rank_symbols .mixcase_digits_punct r).length)))) := by
    intro j
    simp only [hashed_buf, hinit, advance_passes_quick]
  refine ⟨⟨_, hinit, by rw [hhash]; rfl, ?_⟩, ?_, ?_, by decide⟩
  · intro j hj
    obtain ⟨buf1, h1, -⟩ := repeat_increment_whole .mixcase_digits_punct _ j hsym0
      (by rw [hlen0]; exact hj)
    rw [hlen0] at h1
    exact ⟨buf1, by rw [hhash, show CMessageLen - 1 = 16 - 1 from rfl, h1]; rfl⟩
  · intro j buf h
    rw [hhash] at h
    cases hrep : repeat_increment .mixcase_digits_punct (CMessageLen - 1) j _ with
    | none => rw [hrep] at h; exact absurd h (by simp [or_out_of_bounds])
    | some b =>
      rw [hrep] at h
      simp only [or_out_of_bounds, Except.ok.injEq] at h
      subst h
      have hrep2 := hrep
      rw [show CMessageLen - 1 = (message_literal .mixcase_digits_punct ++
        rank_symbols .mixcase_digits_punct r ++
        pad_symbols .mixcase_digits_punct (CMessageLen -
          ((message_literal .mixcase_digits_punct).length +
            (rank_symbols .mixcase_digits_punct r).length))).length - 1 by rw [hlen0]; rfl]
        at hrep2
      obtain ⟨h1, h2⟩ := repeat_increment_keeps_symbols _ j _ _ hsym0 hrep2
      exact ⟨by rw [h1, hlen0], h2⟩
  · intro a
    simp [is_symbol]

theorem default_quick_buffers_witness :
    (2147483647 < 2 ^ 31) ∧
    ((∃ buf0, initial_buf .mixcase_digits_punct false 2147483647 = .ok buf0 ∧
      hashed_buf .mixcase_digits_punct false 2147483647 106 0 = .ok buf0 ∧
      ∀ j, value_of .mixcase_digits_punct buf0 + j < 77 ^ 16 →
        ∃ buf, hashed_buf .mixcase_digits_punct false 2147483647 106 j = .ok buf) ∧
    (∀ j buf, hashed_buf .mixcase_digits_punct false 2147483647 106 j = .ok buf →
      buf.length = 16 ∧ ∀ a ∈ buf, is_symbol .mixcase_digits_punct a = true) ∧
    (∀ a, is_symbol .mixcase_digits_punct a = true ↔
      (33 ≤ a ∧ a ≤ 57) ∨ (65 ≤ a ∧ a ≤ 90) ∨ (97 ≤ a ∧ a ≤ 122)) ∧
    ((List.range 256).filter (is_symbol .mixcase_digits_punct)).length = 77) :=
  ⟨by decide, default_quick_buffers 2147483647 106 (by decide)⟩

/-! ## The search loop -/

theorem search_loop_found_iff_passes (cfg : Alphabet) (stepover_run : Bool) (mpi_total : Nat)
    (digest : List Nat → Digest) (msg : List Nat) (fuel : Nat) :
    ∀ buf : List Nat,
      search_loop cfg stepover_run mpi_total digest fuel buf = .found msg ↔
        ∃ k, k < fuel ∧ advance_passes cfg stepover_run mpi_total k buf = some msg ∧
          is_phpmagic_buf (digest msg) = true ∧
          ∀ i, i < k → ∃ b, advance_passes cfg stepover_run mpi_total i buf = some b ∧
            is_phpmagic_buf (digest b) = false := by
  induction fuel with
  | zero =>
    intro buf
    simp [search_loop]
  | succ fuel ih =>
    intro buf
    by_cases hm : is_phpmagic_buf (digest buf) = true
    · simp only [search_loop, hm, if_true]
      constructor
      · intro h
        have hb : buf = msg := Outcome.found.inj h
        subst hb
        exact ⟨0, by omega, rfl, hm, fun i hi => absurd hi (by omega)⟩
      · rintro ⟨k, -, hk, -, hbefore⟩
        cases k with
        | zero =>
          have hb : buf = msg := Option.some.inj hk
          rw [hb]
        | succ k =>
          obtain ⟨b, hb, hbm⟩ := hbefore 0 (by omega)
          have hbb : buf = b := Option.some.inj hb
          rw [← hbb, hm] at hbm
          exact absurd hbm (by decide)
    · have hmf : is_phpmagic_buf (digest buf) = false := by simpa using hm
      simp only [search_loop, hmf, Bool.false_eq_true, if_false]
      cases hadv : loop_advance cfg stepover_run mpi_total buf with
      | none =>
        simp only []
        constructor
        · intro h; exact absurd h (by simp)
        · rintro ⟨k, -, hk, hmsg, -⟩
          cases k with
          | zero =>
            have hb : buf = msg := Option.some.inj hk
            rw [← hb, hmf] at hmsg
            exact absurd hmsg (by decide)
          | succ k =>
            simp only [advance_passes, hadv] at hk
            exact absurd hk (by simp)
      | some buf1 =>
        simp only []
        rw [ih buf1]
        constructor
        · rintro ⟨k, hk, hadvk, hmsg, hbefore⟩
          refine ⟨k + 1, by omega, by simp only [advance_passes, hadv]; exact hadvk, hmsg, ?_⟩
          intro i hi
          cases i with
          | zero => exact ⟨buf, rfl, hmf⟩
          | succ i =>
            obtain ⟨b, hb, hbm⟩ := hbefore i (by omega)
            exact ⟨b, by simp only [advance_passes, hadv]; exact hb, hbm⟩
        · rintro ⟨k, hk, hadvk, hmsg, hbefore⟩
          cases k with
          | zero =>
            have hb : buf = msg := Option.some.inj hadvk
            rw [← hb, hmf] at hmsg
            exact absurd hmsg (by decide)
          | succ k =>
            simp only [advance_passes, hadv] at hadvk
            refine ⟨k, by omega, hadvk, hmsg, ?_⟩
            intro i hi
            obtain ⟨b, hb, hbm⟩ := hbefore (i + 1) (by omega)
            simp only [advance_passes, hadv] at hb
            exact ⟨b, hb, hbm⟩

theorem advance_passes_eq_repeat (cfg : Alphabet) (stepover_run : Bool) (mpi_total k : Nat)
    (buf : List Nat) :
    advance_passes cfg stepover_run mpi_total k buf =
      repeat_increment cfg (CMessageLen - 1) (k * (if stepover_run then mpi_total else 1)) buf := by
  cases stepover_run with
  | true => simp only [if_true, advance_passes_stepover]
  | false => simp only [Bool.false_eq_true, if_false, Nat.mul_one, advance_passes_quick]

/-- C11: for every digest function and starting buffer, the search loop stops within `fuel`
passes reporting `msg` exactly when `msg` is the starting buffer advanced by `k * step`
increments for some pass `k < fuel` (step `mpi_total` in stepover mode, 1 otherwise), the
digest of `msg` is a match, and the candidate of every earlier pass exists and has a digest
that is no match; so `k` is the first matching pass and `msg` the buffer that matched. -/
theorem search_loop_reports_first_match (cfg : Alphabet) (stepover_run : Bool)
    (mpi_total : Nat) (digest : List Nat → Digest) (fuel : Nat) (buf msg : List Nat) :
    search_loop cfg stepover_run mpi_total digest fuel buf = .found msg ↔
      ∃ k, k < fuel ∧
        repeat_increment cfg (CMessageLen - 1)
          (k * (if stepover_run then mpi_total else 1)) buf = some msg ∧
        is_phpmagic_buf (digest msg) = true ∧
        ∀ i, i < k → ∃ b,
          repeat_increment cfg (CMessageLen - 1)
            (i * (if stepover_run then mpi_total else 1)) buf = some b ∧
          is_phpmagic_buf (digest b) = false := by
  rw [search_loop_found_iff_passes]
  simp only [advance_passes_eq_repeat]

/-! ## Digit bytes and e-digit bytes -/

/-- C21: for a byte `b`, `is_digit_byte b` holds exactly when its high and its low nibble
are at most 9, which 100 byte values satisfy; `is_edigit_byte b` holds exactly when
`0xe0 ≤ b ≤ 0xe9`, which 10 byte values satisfy; no byte satisfies both. -/
theorem digit_and_edigit_bytes (b : Nat) (hb : b < 256) :
    (is_digit_byte b = true ↔ ((b >>> 4) &&& 15) ≤ 9 ∧ (b &&& 15) ≤ 9) ∧
      (is_digit_byte b = true ↔ b / 16 ≤ 9 ∧ b % 16 ≤ 9) ∧
      ((List.range 256).filter is_digit_byte).length = 100 ∧
      (is_edigit_byte b = true ↔ 0xe0 ≤ b ∧ b ≤ 0xe9) ∧
      ((List.range 256).filter is_edigit_byte).length = 10 ∧
      ¬ (is_digit_byte b = true ∧ is_edigit_byte b = true) := by
  refine ⟨?_, ?_, by decide!, ?_, by decide!, ?_⟩
  · have hhi : b / 16 % 16 = b / 16 := Nat.mod_eq_of_lt (by omega)
    rw [is_digit_byte_iff, shiftRight_4_eq_div, and_15_eq_mod, and_15_eq_mod, hhi]
    exact And.comm
  · rw [is_digit_byte_iff]
    exact And.comm
  · rw [is_edigit_byte_iff]
    omega
  · rw [is_digit_byte_iff, is_edigit_byte_iff]
    omega

theorem digit_and_edigit_bytes_witness :
    (0xe9 < 256) ∧
    ((is_digit_byte 0xe9 = true ↔ ((0xe9 >>> 4) &&& 15) ≤ 9 ∧ (0xe9 &&& 15) ≤ 9) ∧
      (is_digit_byte 0xe9 = true ↔ 0xe9 / 16 ≤ 9 ∧ 0xe9 % 16 ≤ 9) ∧
      ((List.range 256).filter is_digit_byte).length = 100 ∧
      (is_edigit_byte 0xe9 = true ↔ 0xe0 ≤ 0xe9 ∧ 0xe9 ≤ 0xe9) ∧
      ((List.range 256).filter is_edigit_byte).length = 10 ∧
      ¬ (is_digit_byte 0xe9 = true ∧ is_edigit_byte 0xe9 = true)) :=
  ⟨by decide, digit_and_edigit_bytes 0xe9 (by decide)⟩

end PhpMagic
